import Mathlib

/-!
Verification development for the tool-resolution core of `mheap/agent-en-place`.

The Go sources are shallowly embedded below.  Strings are modelled as Lean
`String`s (character lists); Go maps are modelled as association lists with
unique keys, with lookup as the observable operation; filesystem reads and the
external TOML library call are taken as explicit inputs (the parse outcome of
`toml.Unmarshal` is an `Option TomlDoc`, `none` standing for a parse error,
and the order of a `TomlTable` records one possible enumeration order of the
underlying Go map, which Go randomizes per run).
-/

namespace AgentEnPlace

/-- ASCII whitespace, as trimmed by `strings.TrimSpace` on the inputs considered
(Go trims Unicode space; the inputs in scope are ASCII). -/
def isGoSpace (c : Char) : Bool :=
  c = ' ' || c = '\t' || c = '\n' || c = '\r' || c = '\x0b' || c = '\x0c'

/-- Model of `strings.TrimSpace` on a character list. -/
def goTrim (l : List Char) : List Char :=
  ((l.dropWhile isGoSpace).reverse.dropWhile isGoSpace).reverse

/-- Model of `strings.TrimSpace` on a string. -/
def goTrimString (s : String) : String := ⟨goTrim s.data⟩

/-- Split a character list at every occurrence of `sep` (the behavior of
`strings.Split`/line scanning for a one-character separator). -/
def splitOnCharAux (sep : Char) : List Char → List Char → List String
  | [], acc => [⟨acc.reverse⟩]
  | c :: rest, acc =>
    if c = sep then (⟨acc.reverse⟩ : String) :: splitOnCharAux sep rest []
    else splitOnCharAux sep rest (c :: acc)

/-- Split a string at every occurrence of the character `sep`. -/
def splitOnChar (sep : Char) (s : String) : List String :=
  splitOnCharAux sep s.data []

/-- Model of `strings.HasPrefix` for a one-character prefix. -/
def startsWithChar (c : Char) (s : String) : Bool :=
  match s.data with
  | [] => false
  | x :: _ => x = c

/-- The field-splitting loop of `strings.Fields`: break at runs of
whitespace. -/
def goFieldsAux : List Char → List Char → List String
  | [], acc => if acc = [] then [] else [⟨acc.reverse⟩]
  | c :: rest, acc =>
    if isGoSpace c then
      (if acc = [] then goFieldsAux rest [] else (⟨acc.reverse⟩ : String) :: goFieldsAux rest [])
    else goFieldsAux rest (c :: acc)

/-- Model of `strings.Fields`: split on runs of whitespace. -/
def goFields (s : String) : List String :=
  goFieldsAux s.data []

/-- ASCII lower-casing of one character, matching `strings.ToLower` on the
ASCII range (the only range the sanitizer keeps). -/
def lowerChar (c : Char) : Char :=
  if 'A' ≤ c ∧ c ≤ 'Z' then Char.ofNat (c.toNat + 32) else c

/-- Lower-case letters and digits: the characters `sanitizeTagComponent`
keeps verbatim. -/
def isLowerAlnum (c : Char) : Bool :=
  ('a' ≤ c && c ≤ 'z') || ('0' ≤ c && c ≤ '9')

/-- The fixed punctuation set `sanitizeTagComponent` maps to hyphens
(`+ @ : / _ -`). -/
def isPunctToHyphen (c : Char) : Bool :=
  c = '+' || c = '@' || c = ':' || c = '/' || c = '_' || c = '-'

/-- The rune loop of `sanitizeTagComponent` (src/unnamed/part_000, lines
726-742): keep lower-case alphanumerics and periods, collapse the fixed
punctuation set to single hyphens via the `lastHyphen` flag, and silently
drop every other character. -/
def sanitizeLoop : List Char → Bool → List Char
  | [], _ => []
  | c :: rest, lastHyphen =>
    if isLowerAlnum c then c :: sanitizeLoop rest false
    else if c = '.' then '.' :: sanitizeLoop rest false
    else if isPunctToHyphen c then
      (if lastHyphen then sanitizeLoop rest true else '-' :: sanitizeLoop rest true)
    else sanitizeLoop rest lastHyphen

/-- Model of `strings.Trim(s, "-")`. -/
def trimHyphens (l : List Char) : List Char :=
  ((l.dropWhile (fun c => c = '-')).reverse.dropWhile (fun c => c = '-')).reverse

/-- Embeds `sanitizeTagComponent` (src/unnamed/part_000, lines 722-745). -/
def sanitizeTagComponent (s : String) : String :=
  ⟨trimHyphens (sanitizeLoop ((goTrim s.data).map lowerChar) false)⟩

/-- Segment after the last `/` (for `strings.LastIndex(toolName, "/")`). -/
def afterLastSlash (l : List Char) : List Char :=
  (l.reverse.takeWhile (fun c => c ≠ '/')).reverse

/-- Segment after the first `:` (for `strings.Index(toolName, ":")`). -/
def afterFirstColon (l : List Char) : List Char :=
  ((l.dropWhile (fun c => c ≠ ':')).drop 1)

/-- Embeds `getLabelName` (src/unnamed/part_000, lines 57-67). -/
def getLabelName (toolName : String) : String :=
  if toolName.data.contains '/' then ⟨afterLastSlash toolName.data⟩
  else if toolName.data.contains ':' then ⟨afterFirstColon toolName.data⟩
  else toolName

/-- Provenance of a tool descriptor.  The current revision of `agent.go`
(whose tests are in `agent_test.go`) tags descriptors with string constants
`sourceUser` / `sourceConfig` / `sourceEnvVar`; only their distinctness is
observable here, so they are modelled as an enumeration.  The intermediate
revision in src/unnamed/part_000 has no such field; its functions leave it
at `unset`. -/
inductive ToolSource
  | unset
  | user
  | config
  | envVar
deriving DecidableEq

/-- Embeds `toolDescriptor` (src/unnamed/part_000, lines 326-330). -/
structure toolDescriptor where
  name : String
  version : String
  labelName : String
  source : ToolSource
deriving DecidableEq

/-- Embeds `idiomaticInfo` (src/unnamed/part_000, lines 338-343). -/
structure idiomaticInfo where
  tool : String
  version : String
  path : String
  configKey : String
deriving DecidableEq

/-- The loop of `dedupeToolSpecs` (src/unnamed/part_000, lines 382-405), with
the Go `seen` map carried as the list of keys inserted so far. -/
def dedupeAux : List toolDescriptor → List String → List toolDescriptor
  | [], _ => []
  | s :: rest, seen =>
    let key := sanitizeTagComponent s.name
    if key = "" then dedupeAux rest seen
    else if seen.contains key then dedupeAux rest seen
    else
      { name := key
      , version := if s.version = "" then "latest" else s.version
      , labelName := if s.labelName = "" then getLabelName s.name else s.labelName
      , source := s.source } :: dedupeAux rest (key :: seen)

/-- Embeds `dedupeToolSpecs` (src/unnamed/part_000, lines 382-405). -/
def dedupeToolSpecs (specs : List toolDescriptor) : List toolDescriptor :=
  dedupeAux specs []

/-- Embeds `ToolSpec` (src/unnamed/part_000, lines 39-46). -/
structure ToolSpec where
  MiseToolName : String
  ConfigKey : String
  Command : String
  ConfigDir : String
  AdditionalMounts : List String
  EnvVars : List String
deriving DecidableEq

/-- The descriptor `ensureDefaultTool` appends when the agent's package is
absent. -/
def defaultToolDescriptor (toolSpec : ToolSpec) : toolDescriptor :=
  { name := toolSpec.MiseToolName
  , version := "latest"
  , labelName := getLabelName toolSpec.MiseToolName
  , source := .unset }

/-- Embeds `ensureDefaultTool` (src/unnamed/part_000, lines 407-419). -/
def ensureDefaultTool (specs : List toolDescriptor) (toolSpec : ToolSpec) : List toolDescriptor :=
  let sanitizedName := sanitizeTagComponent toolSpec.MiseToolName
  if specs.any (fun s => s.name = sanitizedName) then specs
  else specs ++ [defaultToolDescriptor toolSpec]

/-- Embeds `ensureToolInfo` (src/unnamed/part_000, lines 421-428). -/
def ensureToolInfo (infos : List idiomaticInfo) (spec : ToolSpec) : List idiomaticInfo :=
  if infos.any (fun info => info.configKey = spec.ConfigKey) then infos
  else infos ++ [{ tool := spec.MiseToolName, version := "latest", path := "", configKey := spec.ConfigKey }]

/-- The loop of `uniquePaths` (src/unnamed/part_000, lines 430-444). -/
def uniquePathsAux : List idiomaticInfo → List String → List String
  | [], _ => []
  | info :: rest, seen =>
    if info.path = "" then uniquePathsAux rest seen
    else if seen.contains info.path then uniquePathsAux rest seen
    else info.path :: uniquePathsAux rest (info.path :: seen)

/-- Embeds `uniquePaths` (src/unnamed/part_000, lines 430-444). -/
def uniquePaths (infos : List idiomaticInfo) : List String :=
  uniquePathsAux infos []

def imageRepository : String := "mheap/agent-en-place"

/-- Embeds `buildImageName` (src/unnamed/part_000, lines 606-626). -/
def buildImageName (specs : List toolDescriptor) : String :=
  if specs = [] then imageRepository ++ ":latest"
  else
    let parts := specs.map (fun spec =>
      let name := sanitizeTagComponent spec.name
      let name := if name = "" then "tool" else name
      let version := sanitizeTagComponent spec.version
      let version := if version = "" then "latest" else version
      name ++ "-" ++ version)
    if parts = [] then imageRepository ++ ":latest"
    else imageRepository ++ ":" ++ String.intercalate "-" parts

/-- Embeds `buildToolLabels` (src/unnamed/part_000, lines 628-646); a skipped
descriptor contributes the empty string. -/
def buildToolLabels (specs : List toolDescriptor) : String :=
  String.join (specs.map (fun spec =>
    let name := if spec.labelName = "" then sanitizeTagComponent spec.name else spec.labelName
    if name = "" then ""
    else
      let version := sanitizeTagComponent spec.version
      let version := if version = "" then "latest" else version
      "LABEL com.mheap.agent-en-place." ++ name ++ "=\"" ++ version ++ "\"\n"))

/-- Association-list lookup modelling a Go map read (first matching key). -/
def lookupAssoc {α : Type} : List (String × α) → String → Option α
  | [], _ => none
  | (k0, v0) :: rest, k => if k0 = k then some v0 else lookupAssoc rest k

/-- Association-list insert modelling a Go map write (`m[k] = v`): replace
the existing binding for `k`, or append a new one. -/
def insertAssoc {α : Type} : List (String × α) → String → α → List (String × α)
  | [], k, v => [(k, v)]
  | (k0, v0) :: rest, k, v =>
    if k0 = k then (k, v) :: rest else (k0, v0) :: insertAssoc rest k v

/-- Copy every binding of `user` into `base`, in order (the Go
`for k, v := range user { result[k] = v }` loops). -/
def mergeAssoc {α : Type} (base user : List (String × α)) : List (String × α) :=
  user.foldl (fun acc kv => insertAssoc acc kv.1 kv.2) base

/-- Embeds `ToolConfigEntry` (src/internal/agent/config.go, current revision). -/
structure ToolConfigEntry where
  Version : String
  Depends : String
  AdditionalPackages : List String
deriving DecidableEq

/-- The zero value a Go map read returns for a missing tool key. -/
def zeroToolEntry : ToolConfigEntry := { Version := "", Depends := "", AdditionalPackages := [] }

/-- Embeds `AgentConfig` (src/internal/agent/config.go, current revision). -/
structure AgentConfig where
  PackageName : String
  Command : String
  ConfigDir : String
  AdditionalMounts : List String
  EnvVars : List String
  Depends : List String
deriving DecidableEq

/-- Embeds `ImageSettings` (src/internal/agent/config.go, current revision). -/
structure ImageSettings where
  Base : String
  Packages : List String
deriving DecidableEq

/-- Embeds `ImageCustomization` (src/internal/agent/config.go, current revision). -/
structure ImageCustomization where
  Op : String
  Value : String
deriving DecidableEq

/-- Embeds `ImageCustomizations` (src/internal/agent/config.go, current revision). -/
structure ImageCustomizations where
  Packages : List ImageCustomization
deriving DecidableEq

/-- Embeds `MiseSettings` (src/internal/agent/config.go, current revision); the
`env` map's values are the strings observed by the renderers. -/
structure MiseSettings where
  Install : List String
  Env : List (String × String)
deriving DecidableEq

/-- Embeds `ImageConfig` (src/internal/agent/config.go, current revision); the
`tools` and `agents` Go maps are modelled as association lists with unique
keys. -/
structure ImageConfig where
  Tools : List (String × ToolConfigEntry)
  Agents : List (String × AgentConfig)
  Image : ImageSettings
  Mise : MiseSettings
  ImageCustoms : ImageCustomizations
deriving DecidableEq

/-- Embeds `mergeConfigs` (src/internal/agent/config.go, current revision, lines
461-522): per-key merge of `tools`/`agents`, conditional replacement of
`image.base` / `image.packages` / `mise.install`, per-key merge of
`mise.env` (only when the user map is non-empty), and accumulation of
`image_customizations.packages` (only appended when non-empty, which is
also a no-op append). -/
def mergeConfigs (base user : ImageConfig) : ImageConfig :=
  { Tools := mergeAssoc base.Tools user.Tools
  , Agents := mergeAssoc base.Agents user.Agents
  , Image :=
      { Base := if user.Image.Base = "" then base.Image.Base else user.Image.Base
      , Packages := if user.Image.Packages = [] then base.Image.Packages else user.Image.Packages }
  , Mise :=
      { Install := if user.Mise.Install = [] then base.Mise.Install else user.Mise.Install
      , Env := if user.Mise.Env = [] then base.Mise.Env else mergeAssoc base.Mise.Env user.Mise.Env }
  , ImageCustoms :=
      { Packages :=
          if user.ImageCustoms.Packages = [] then base.ImageCustoms.Packages
          else base.ImageCustoms.Packages ++ user.ImageCustoms.Packages } }

/-- The queue loop of `ResolveToolDeps` (src/internal/agent/config.go, current
revision, lines 557-582).  The Go loop runs until the queue empties; an
element is enqueued only when a previously unseen key of `tools` has a
non-empty `depends` and is user-specified, so the loop performs at most
`|initial queue| + |tools|` iterations — the explicit fuel used below is an
upper bound on that and never runs out. -/
def resolveToolDepsLoop (tools : List (String × ToolConfigEntry)) (userTools : List String) :
    Nat → List String → List String → List toolDescriptor
  | 0, _, _ => []
  | _, [], _ => []
  | fuel + 1, toolName :: rest, seen =>
    if seen.contains toolName then resolveToolDepsLoop tools userTools fuel rest seen
    else
      let tool := (lookupAssoc tools toolName).getD zeroToolEntry
      let version := if tool.Version = "" then "latest" else tool.Version
      let queue :=
        if tool.Depends = "" then rest
        else if userTools.contains toolName then rest ++ [tool.Depends]
        else rest
      { name := toolName, version := version, labelName := "", source := .config }
        :: resolveToolDepsLoop tools userTools fuel queue (toolName :: seen)

/-- Embeds `ResolveToolDeps` (src/internal/agent/config.go, current revision, lines
544-585).  `userTools` is the caller-supplied user-specified set; the `debug`
flag only controls a log line and has no observable effect here. -/
def ImageConfig.ResolveToolDeps (c : ImageConfig) (agentName : String)
    (userTools : List String) (_debug : Bool) : List toolDescriptor :=
  match lookupAssoc c.Agents agentName with
  | none => []
  | some agent =>
      resolveToolDepsLoop c.Tools userTools
        (agent.Depends.length + 2 * c.Tools.length + 1) agent.Depends []

/-- Remaining-work measure of the resolve loop: queue length plus twice the
number of tool keys not yet seen.  Each iteration strictly decreases it, so
the fuel passed by `ResolveToolDeps` (an upper bound of the initial
measure) never runs out; `resolveLoop_fuel_irrelevant` below proves this. -/
def resolveMeasure (tools : List (String × ToolConfigEntry)) (q seen : List String) : Nat :=
  q.length + 2 * ((tools.map Prod.fst).filter (fun k => !seen.contains k)).length

/-- The queue loop of the earlier revision's `ResolveToolDeps`
(src/internal/agent/config.go, first revision in the file, lines 223-244):
identical walk but the `depends` edge is always followed, with no
user-specified gating.  Same fuel bound argument as above. -/
def legacyResolveLoop (tools : List (String × ToolConfigEntry)) :
    Nat → List String → List String → List toolDescriptor
  | 0, _, _ => []
  | _, [], _ => []
  | fuel + 1, toolName :: rest, seen =>
    if seen.contains toolName then legacyResolveLoop tools fuel rest seen
    else
      let tool := (lookupAssoc tools toolName).getD zeroToolEntry
      let version := if tool.Version = "" then "latest" else tool.Version
      let queue := if tool.Depends = "" then rest else rest ++ [tool.Depends]
      { name := toolName, version := version, labelName := "", source := .unset }
        :: legacyResolveLoop tools fuel queue (toolName :: seen)

/-- Embeds `ResolveToolDeps` of the earlier config.go revision (the one the
intermediate agent.go in src/unnamed/part_000 calls with a single
argument). -/
def legacyResolveToolDeps (c : ImageConfig) (agentName : String) : List toolDescriptor :=
  match lookupAssoc c.Agents agentName with
  | none => []
  | some agent =>
      legacyResolveLoop c.Tools (agent.Depends.length + 2 * c.Tools.length + 1) agent.Depends []

/-- A value of the parsed TOML document (`map[string]any` entries); the code
only distinguishes string values from everything else. -/
inductive TomlVal
  | str (s : String)
  | nonStr
deriving DecidableEq

/-- One TOML table, as enumerated by a Go `range` loop over the parsed
`map[string]any`: the list order records one possible (randomized)
enumeration order of the map. -/
abbrev TomlTable := List (String × TomlVal)

/-- A parsed TOML document: top-level sections. -/
abbrev TomlDoc := List (String × TomlTable)

/-- A present, non-empty `mise.toml`: `parsed` is the outcome of the external
`toml.Unmarshal` call on its bytes (`none` = parse error). -/
structure miseFileSpec where
  parsed : Option TomlDoc
deriving DecidableEq

/-- Embeds `parseMiseToml` (src/unnamed/part_000, lines 484-507): `nil` file or a
parse failure yields the empty list ("fall back gracefully on parse error");
otherwise the entries of the `tools` table whose values are strings, in map
enumeration order.  (The current revision additionally tags the descriptors
with the user provenance, per `TestParseMiseToml_SetsSourceUser`.) -/
def parseMiseToml (spec : Option miseFileSpec) : List toolDescriptor :=
  match spec with
  | none => []
  | some f =>
    match f.parsed with
    | none => []
    | some config =>
      match lookupAssoc config "tools" with
      | none => []
      | some tools =>
        tools.foldr (fun nv acc =>
          match nv.2 with
          | .str v => { name := nv.1, version := v, labelName := "", source := .user } :: acc
          | .nonStr => acc) []

/-- Embeds `parseToolVersions` (src/unnamed/part_000, lines 459-482) on the file's
text: line-oriented `name [version]` pairs, blank and `#` lines skipped,
missing version defaulting to `"latest"`.  (The current revision tags the
descriptors with the user provenance.) -/
def parseToolVersions (file : Option String) : List toolDescriptor :=
  match file with
  | none => []
  | some data =>
    (splitOnChar '\n' data).foldl (fun acc rawLine =>
      let line := goTrimString rawLine
      if line = "" ∨ startsWithChar '#' line then acc
      else
        match goFields line with
        | [] => acc
        | name :: rest =>
          let version := match rest with | [] => "latest" | v :: _ => v
          acc ++ [{ name := name, version := version, labelName := "", source := .user }]) []

/-- Embeds `collectResult` (src/unnamed/part_000, lines 332-336).  The current
revision additionally records the user-specified name set (`userTools`,
see `TestCollectToolSpecs_EnvToolsAreInUserToolsSet`); the intermediate
revision leaves it empty. -/
structure collectResult where
  specs : List toolDescriptor
  idiomaticPaths : List String
  idiomaticInfos : List idiomaticInfo
  userTools : List String
deriving DecidableEq

/-- Embeds `collectToolSpecs` of the intermediate revision (src/unnamed/part_000,
lines 345-380).  `parseIdiomaticFiles` scans the host filesystem, so its
result list is taken here as the explicit `idiomatic` input; the text of
`.tool-versions` and the parse outcome of `mise.toml` likewise stand for the
two optional on-disk files. -/
def collectToolSpecsCore (toolFile : Option String) (miseFile : Option miseFileSpec)
    (idiomatic : List idiomaticInfo) (spec : ToolSpec) (imgCfg : ImageConfig)
    (agentName : String) : collectResult :=
  let specs := parseToolVersions toolFile
  let specs := specs ++ parseMiseToml miseFile
  let specs := specs ++
    (idiomatic.filter (fun info => info.version ≠ "")).map
      (fun info => { name := info.tool, version := info.version, labelName := "", source := .unset })
  let configTools := legacyResolveToolDeps imgCfg agentName
  let specs := specs ++ configTools
  let deduped := ensureDefaultTool (dedupeToolSpecs specs) spec
  let infos := idiomatic ++ configTools.map
    (fun dep => { tool := dep.name, version := dep.version, path := "", configKey := dep.name })
  let infos := ensureToolInfo infos spec
  { specs := deduped
  , idiomaticPaths := uniquePaths idiomatic
  , idiomaticInfos := infos
  , userTools := [] }

/-- One escaped character of Go's `%q` string formatting (the characters
relevant to the inputs in scope). -/
def goQuoteChar (c : Char) : List Char :=
  if c = '"' then ['\\', '"']
  else if c = '\\' then ['\\', '\\']
  else if c = '\n' then ['\\', 'n']
  else if c = '\t' then ['\\', 't']
  else if c = '\r' then ['\\', 'r']
  else [c]

/-- Go's `fmt.Sprintf("%q", s)`. -/
def goQuote (s : String) : String :=
  "\"" ++ (⟨(s.data.map goQuoteChar).flatten⟩ : String) ++ "\""

/-- Lexicographic order on character lists (byte-wise string comparison, as
`sort.Strings` uses; identical for the ASCII inputs in scope). -/
def listLe : List Char → List Char → Bool
  | [], _ => true
  | _ :: _, [] => false
  | a :: as, b :: bs =>
    if a.toNat < b.toNat then true
    else if b.toNat < a.toNat then false
    else listLe as bs

/-- Lexicographic string order. -/
def stringLe (a b : String) : Bool := listLe a.data b.data

/-- Model of `sort.Strings`: ascending lexicographic sort of the key list. -/
def sortStrings (l : List String) : List String :=
  l.insertionSort (fun a b => stringLe a b = true)

/-- Embeds `marshalAgentMiseConfig` (src/unnamed/part_000, lines 695-720): an empty
map yields empty output; otherwise a `[tools]` header followed by one
`key = "version"` line per entry, keys sorted, values `%q`-quoted, and keys
containing `:`/`@`/`/` themselves `%q`-quoted. -/
def marshalAgentMiseConfig (tools : List (String × String)) : String :=
  if tools = [] then ""
  else
    "[tools]\n" ++ String.join ((sortStrings (tools.map Prod.fst)).map (fun name =>
      let version := (lookupAssoc tools name).getD ""
      let quotedName :=
        if name.data.any (fun c => c = ':' || c = '@' || c = '/') then goQuote name else name
      quotedName ++ " = " ++ goQuote version ++ "\n"))

/-- The tool names of the user manifest's `tools` table (the key set
`buildAgentMiseConfig` extracts for suppression). -/
def userToolNames (config : TomlDoc) : List String :=
  match lookupAssoc config "tools" with
  | none => []
  | some tools => tools.map Prod.fst

/-- One iteration of the info loop in `buildAgentMiseConfig`
(src/unnamed/part_000, lines 670-683): skip blank versions, key by
`configKey` (falling back to `tool`), skip keys the user already pinned,
otherwise write into the agent-tools map. -/
def agentToolsStep (userTools : List String) (acc : List (String × String))
    (info : idiomaticInfo) : List (String × String) :=
  if goTrimString info.version = "" then acc
  else if userTools.contains (if info.configKey = "" then info.tool else info.configKey) then acc
  else insertAssoc acc (if info.configKey = "" then info.tool else info.configKey)
    (goTrimString info.version)

/-- The agent-tools map built by `buildAgentMiseConfig` (src/unnamed/part_000,
lines 666-688): the info loop above, then the agent's own key set to
`"latest"` unless user-pinned. -/
def agentToolsMap (userTools : List String) (infos : List idiomaticInfo)
    (configKey : String) : List (String × String) :=
  if userTools.contains configKey then infos.foldl (agentToolsStep userTools) []
  else insertAssoc (infos.foldl (agentToolsStep userTools) []) configKey "latest"

/-- Embeds `buildAgentMiseConfig` (src/unnamed/part_000, lines 651-692).  A present
user `mise.toml` whose bytes fail to parse propagates the error (unlike
`parseMiseToml`); otherwise the user's tool keys are suppressed and the
remaining map is marshalled. -/
def buildAgentMiseConfig (userMise : Option miseFileSpec) (collection : collectResult)
    (spec : ToolSpec) : Except String String :=
  match userMise with
  | some f =>
    match f.parsed with
    | none => .error "failed to parse mise.toml"
    | some config =>
      .ok (marshalAgentMiseConfig
        (agentToolsMap (userToolNames config) collection.idiomaticInfos spec.ConfigKey))
  | none =>
    .ok (marshalAgentMiseConfig
      (agentToolsMap [] collection.idiomaticInfos spec.ConfigKey))

/-- Index of the last occurrence of `c` in `l`. -/
def lastIndexOfChar (l : List Char) (c : Char) : Option Nat :=
  match l with
  | [] => none
  | x :: rest =>
    match lastIndexOfChar rest c with
    | some i => some (i + 1)
    | none => if x = c then some 0 else none

/-- Modelled from the spec: `splitToolVersion` is defined only in the current
revision of agent.go, which is not present under src (only its unit tests in
src/internal/agent/agent_test.go are).  Per the spec: an environment-override
token is split at its last `@`; a leading `@` (an identifier starting with
`@`) is part of the name, not a version delimiter; a missing or empty version
defaults to `"latest"`. -/
def splitToolVersion (token : String) : String × String :=
  match lastIndexOfChar token.data '@' with
  | none => (token, "latest")
  | some 0 => (token, "latest")
  | some i =>
    let name : String := ⟨token.data.take i⟩
    let version : String := ⟨token.data.drop (i + 1)⟩
    if version = "" then (name, "latest") else (name, version)

/-- Modelled from the spec: `parseEnvTools` (current revision, not under src)
reads one comma-separated list of `name` or `name@version` tokens from the
override environment variable; entries empty after trimming are skipped, and
the descriptors carry the environment-override provenance. -/
def parseEnvTools (raw : String) : List toolDescriptor :=
  if raw = "" then []
  else
    (splitOnChar ',' raw).foldl (fun acc rawEntry =>
      let entry := goTrimString rawEntry
      if entry = "" then acc
      else
        let nv := splitToolVersion entry
        acc ++ [{ name := nv.1, version := nv.2, labelName := "", source := .envVar }]) []

/-- Modelled from the spec: the current revision's `collectToolSpecs`
(src/internal/agent/agent_test.go exercises it; the function itself is not
under src).  Collection order defines precedence: (1) environment-variable
overrides, (2) generic manifest, (3) native manifest, (4) idiomatic files,
(5) config-declared transitive tool dependencies, followed by the
first-occurrence-wins dedup and default-tool injection.  When the
specified-tools-only flag is set and the override list is non-empty, sources
(2)-(5) are all skipped — only the environment overrides and the agent's own
required package are installed (`TestCollectToolSpecs_SpecifiedToolsOnly`
requires claude's config dependency `node` to be absent in that mode); the
flag without overrides is ignored.  The user-specified name set is the names
collected from sources (1)-(4). -/
def collectToolSpecsEnv (envRaw : String) (specifiedOnlyFlag : Bool)
    (toolFile : Option String) (miseFile : Option miseFileSpec)
    (idiomatic : List idiomaticInfo) (spec : ToolSpec) (imgCfg : ImageConfig)
    (agentName : String) : collectResult :=
  let envSpecs := parseEnvTools envRaw
  let specifiedOnly := specifiedOnlyFlag ∧ envSpecs ≠ []
  let fileSpecs :=
    if specifiedOnly then []
    else
      parseToolVersions toolFile ++ parseMiseToml miseFile ++
        (idiomatic.filter (fun info => info.version ≠ "")).map
          (fun info => { name := info.tool, version := info.version, labelName := "", source := .user })
  let userSpecs := envSpecs ++ fileSpecs
  let userTools := userSpecs.map (fun s => s.name)
  let configTools :=
    if specifiedOnly then [] else imgCfg.ResolveToolDeps agentName userTools false
  let deduped := ensureDefaultTool (dedupeToolSpecs (userSpecs ++ configTools)) spec
  let infos :=
    (if specifiedOnly then [] else idiomatic) ++
      (envSpecs ++ configTools).map
        (fun dep => { tool := dep.name, version := dep.version, path := "", configKey := dep.name })
  let infos := ensureToolInfo infos spec
  { specs := deduped
  , idiomaticPaths := if specifiedOnly then [] else uniquePaths idiomatic
  , idiomaticInfos := infos
  , userTools := userTools }

/-- The `node` entry of the embedded default configuration (docs/config.md,
"Default Configuration"): `version: latest`, `depends: python`,
`additionalPackages: [libatomic1]`. -/
def nodeEntry : ToolConfigEntry :=
  { Version := "latest", Depends := "python", AdditionalPackages := ["libatomic1"] }

/-- The `python` entry of the embedded default configuration. -/
def pythonEntry : ToolConfigEntry :=
  { Version := "latest", Depends := "", AdditionalPackages := [] }

/-- The `claude` agent of the embedded default configuration. -/
def claudeAgent : AgentConfig :=
  { PackageName := "npm:@anthropic-ai/claude-code"
  , Command := "claude --dangerously-skip-permissions"
  , ConfigDir := ".claude"
  , AdditionalMounts := [".claude.json"]
  , EnvVars := ["ANTHROPIC_API_KEY"]
  , Depends := ["node"] }

/-- The fragment of the embedded default configuration relevant to the
`claude` scenarios (tools `node`/`python`, agent `claude`). -/
def exampleConfig : ImageConfig :=
  { Tools := [("node", nodeEntry), ("python", pythonEntry)]
  , Agents := [("claude", claudeAgent)]
  , Image := { Base := "debian:12-slim"
             , Packages := ["curl", "ca-certificates", "git", "gnupg", "apt-transport-https"] }
  , Mise := { Install := [], Env := [("ruby_compile", "false")] }
  , ImageCustoms := { Packages := [] } }

/-- Applies `ToToolSpec` (src/internal/agent/config.go) to `claudeAgent`. -/
def claudeToolSpec : ToolSpec :=
  { MiseToolName := claudeAgent.PackageName
  , ConfigKey := claudeAgent.PackageName
  , Command := claudeAgent.Command
  , ConfigDir := claudeAgent.ConfigDir
  , AdditionalMounts := claudeAgent.AdditionalMounts
  , EnvVars := claudeAgent.EnvVars }

/-- The descriptor `dedupeToolSpecs` emits for the first occurrence of a
normalized name. -/
def resolveDescriptor (s : toolDescriptor) : toolDescriptor :=
  { name := sanitizeTagComponent s.name
  , version := if s.version = "" then "latest" else s.version
  , labelName := if s.labelName = "" then getLabelName s.name else s.labelName
  , source := s.source }

def orElseOpt {α : Type} : Option α → Option α → Option α
  | some v, _ => some v
  | none, b => b

/-- The two enumeration orders of the same parsed `[tools]` table
`{node ↦ "18", python ↦ "3"}` (Go randomizes map iteration per run). -/
def miseTomlToolsOrderA : TomlDoc := [("tools", [("node", TomlVal.str "18"), ("python", TomlVal.str "3")])]

/-- The same table enumerated in the opposite order. -/
def miseTomlToolsOrderB : TomlDoc := [("tools", [("python", TomlVal.str "3"), ("node", TomlVal.str "18")])]

/-- The user's native manifest of the C2 scenario: `node = "18"`. -/
def c2MiseDoc : TomlDoc := [("tools", [("node", TomlVal.str "18")])]

/-- The user's native manifest of the specified-tools-only scenario
(`TestCollectToolSpecs_SpecifiedToolsOnly`): `node = "18"`,
`ruby = "3.2"`. -/
def c2SpecifiedOnlyMiseDoc : TomlDoc :=
  [("tools", [("node", TomlVal.str "18"), ("ruby", TomlVal.str "3.2")])]

/-- An overlay layer for the C4 witness: overrides the `ruby_compile` mise
env key, adds a `go` tool, and carries one package customization. -/
def overlayConfigExample : ImageConfig :=
  { Tools := [("go", { Version := "1.22", Depends := "", AdditionalPackages := [] })]
  , Agents := []
  , Image := { Base := "", Packages := [] }
  , Mise := { Install := [], Env := [("ruby_compile", "true")] }
  , ImageCustoms := { Packages := [{ Op := "add", Value := "vim" }] } }

/-- The collection of the C5 witness: one idiomatic `node` pin. -/
def c5Collection : collectResult :=
  { specs := []
  , idiomaticPaths := []
  , idiomaticInfos := [{ tool := "node", version := "20.0.0", path := "", configKey := "node" }]
  , userTools := [] }

/-- The user manifest of the C5 witness: pins `python` only. -/
def c5UserDoc : TomlDoc := [("tools", [("python", TomlVal.str "3.12.0")])]

/-- The rune loop that the C7 claim's words describe (refinement comparison
against the source): every non-alphanumeric character other than `.` —
not just the source's fixed punctuation set — collapses into runs of single
hyphens. -/
def claimLoop : List Char → Bool → List Char
  | [], _ => []
  | c :: rest, lastHyphen =>
    if isLowerAlnum c then c :: claimLoop rest false
    else if c = '.' then '.' :: claimLoop rest false
    else (if lastHyphen then claimLoop rest true else '-' :: claimLoop rest true)

/-- The normalization function as the C7 claim states it (case-fold, collapse
every non-alphanumeric character except `.` to single hyphens, trim
hyphens); compare with `sanitizeTagComponent`. -/
def claimSanitize (s : String) : String :=
  ⟨trimHyphens (claimLoop ((goTrim s.data).map lowerChar) false)⟩

/-- Substring test on character lists (structural, used to state that a name
occurs in rendered manifest text). -/
def hasSubstring (needle : List Char) : List Char → Bool
  | [] => needle.isEmpty
  | c :: rest => if needle.isPrefixOf (c :: rest) then true else hasSubstring needle rest

/-- A configuration whose `claude` agent declares the punctuation-only
config dependency `"!!!"` (a tool name that normalizes to the empty
string). -/
def bangConfig : ImageConfig :=
  { exampleConfig with Agents := [("claude", { claudeAgent with Depends := ["!!!"] })] }

/-- The collection the intermediate `collectToolSpecs` resolves for
`bangConfig` with no on-disk files. -/
def bangCollection : collectResult :=
  collectToolSpecsCore none none [] claudeToolSpec bangConfig "claude"

/-! Section: Canonical form of sanitized tag components -/

/-- The characters a sanitized tag component may contain. -/
def allowedTagChar (c : Char) : Bool :=
  isLowerAlnum c || c = '.' || c = '-'

/-- No two adjacent hyphens. -/
def noDoubleHyphen : List Char → Bool
  | a :: b :: rest => ((a ≠ '-') || (b ≠ '-')) && noDoubleHyphen (b :: rest)
  | _ => true

/-- The first character, if any, is not a hyphen. -/
def headNotHyphen : List Char → Bool
  | [] => true
  | c :: _ => c ≠ '-'

/-- The last character, if any, is not a hyphen. -/
def lastNotHyphen (l : List Char) : Bool :=
  headNotHyphen l.reverse

/-- Canonical form: only allowed characters, no hyphen runs, no leading or
trailing hyphen. -/
def canonicalTag (l : List Char) : Bool :=
  l.all allowedTagChar && noDoubleHyphen l && headNotHyphen l && lastNotHyphen l

theorem noDoubleHyphen_cons (x : Char) (l : List Char) :
    noDoubleHyphen (x :: l) = (((x ≠ '-') || headNotHyphen l) && noDoubleHyphen l) := by
  cases l <;> simp [noDoubleHyphen, headNotHyphen]

theorem isLowerAlnum_ne_hyphen {c : Char} (h : isLowerAlnum c = true) : c ≠ '-' := by
  intro hc
  subst hc
  exact absurd h (by decide)

theorem sanitizeLoop_allowed :
    ∀ (l : List Char) (flag : Bool), (sanitizeLoop l flag).all allowedTagChar = true := by
  intro l
  induction l with
  | nil => intro flag; simp [sanitizeLoop]
  | cons c rest ih =>
    intro flag
    simp only [sanitizeLoop]
    by_cases h1 : isLowerAlnum c = true
    · simp [h1, List.all_cons, ih, allowedTagChar]
    · simp only [h1, if_false, Bool.false_eq_true]
      by_cases h2 : c = '.'
      · simp [h2, h1, List.all_cons, ih, allowedTagChar]
      · simp only [h2, if_false]
        by_cases h3 : isPunctToHyphen c = true
        · cases flag with
          | true => simp [h3, ih]
          | false => simp [h3, List.all_cons, ih, allowedTagChar]
        · simp only [h3, Bool.false_eq_true, if_false]
          exact ih _

theorem sanitizeLoop_noDH :
    ∀ (l : List Char) (flag : Bool),
      noDoubleHyphen (sanitizeLoop l flag) = true ∧
        (flag = true → headNotHyphen (sanitizeLoop l flag) = true) := by
  intro l
  induction l with
  | nil => intro flag; simp [sanitizeLoop, noDoubleHyphen, headNotHyphen]
  | cons c rest ih =>
    intro flag
    simp only [sanitizeLoop]
    by_cases h1 : isLowerAlnum c = true
    · have hc : c ≠ '-' := isLowerAlnum_ne_hyphen h1
      simp [h1, noDoubleHyphen_cons, headNotHyphen, hc, (ih false).1]
    · simp only [h1, Bool.false_eq_true, if_false]
      by_cases h2 : c = '.'
      · have hc : c ≠ '-' := by simp [h2]
        simp [h2, noDoubleHyphen_cons, headNotHyphen, (ih false).1]
      · simp only [h2, if_false]
        by_cases h3 : isPunctToHyphen c = true
        · cases flag with
          | true => simpa [h3] using ih true
          | false =>
            refine ⟨?_, by intro h; cases h⟩
            have hh := (ih true).2 rfl
            simp [h3, noDoubleHyphen_cons, hh, (ih true).1]
        · simp only [h3, Bool.false_eq_true, if_false]
          exact ih flag

theorem headNotHyphen_dropWhile (l : List Char) :
    headNotHyphen (l.dropWhile (fun c => c = '-')) = true := by
  induction l with
  | nil => simp [headNotHyphen]
  | cons c rest ih =>
    by_cases h : c = '-'
    · simpa [List.dropWhile, h] using ih
    · simp [List.dropWhile, h, headNotHyphen]

theorem dropWhile_append_singleton {p : Char → Bool} {x : Char} (hx : p x = false) :
    ∀ A : List Char, (A ++ [x]).dropWhile p = A.dropWhile p ++ [x] := by
  intro A
  induction A with
  | nil => simp [List.dropWhile, hx]
  | cons a A ih =>
    by_cases h : p a
    · simp [List.dropWhile, h, ih]
    · simp [List.dropWhile, h]

theorem noDoubleHyphen_tail {x : Char} {l : List Char}
    (h : noDoubleHyphen (x :: l) = true) : noDoubleHyphen l = true := by
  rw [noDoubleHyphen_cons] at h
  simp only [Bool.and_eq_true] at h
  exact h.2

theorem noDoubleHyphen_dropWhile {p : Char → Bool} :
    ∀ {l : List Char}, noDoubleHyphen l = true → noDoubleHyphen (l.dropWhile p) = true := by
  intro l
  induction l with
  | nil => intro h; exact h
  | cons c rest ih =>
    intro h
    by_cases hc : p c
    · simpa [List.dropWhile, hc] using ih (noDoubleHyphen_tail h)
    · simpa [List.dropWhile, hc] using h

theorem headNotHyphen_append_singleton (x : Char) :
    ∀ A : List Char, headNotHyphen (A ++ [x]) =
      (if A = [] then (x ≠ '-' : Bool) else headNotHyphen A) := by
  intro A
  cases A <;> simp [headNotHyphen]

theorem noDoubleHyphen_append_singleton (x : Char) :
    ∀ A : List Char, noDoubleHyphen (A ++ [x]) =
      (noDoubleHyphen A && (lastNotHyphen A || (x ≠ '-'))) := by
  intro A
  induction A with
  | nil => simp [noDoubleHyphen, lastNotHyphen, headNotHyphen]
  | cons a A ih =>
    rw [List.cons_append, noDoubleHyphen_cons, ih, noDoubleHyphen_cons,
      headNotHyphen_append_singleton]
    cases A with
    | nil =>
      by_cases hx : x = '-' <;> by_cases ha : a = '-' <;>
        simp [lastNotHyphen, headNotHyphen, noDoubleHyphen, hx, ha]
    | cons b B =>
      have hne : (b :: B : List Char) ≠ [] := by simp
      simp only [if_neg hne]
      have hlast : lastNotHyphen (a :: b :: B) = lastNotHyphen (b :: B) := by
        simp only [lastNotHyphen, List.reverse_cons]
        rw [headNotHyphen_append_singleton]
        simp
      rw [hlast, Bool.and_assoc]

theorem noDoubleHyphen_reverse :
    ∀ {l : List Char}, noDoubleHyphen l = true → noDoubleHyphen l.reverse = true := by
  intro l
  induction l with
  | nil => intro h; exact h
  | cons c rest ih =>
    intro h
    rw [List.reverse_cons, noDoubleHyphen_append_singleton]
    have h1 := noDoubleHyphen_tail h
    have h2 : ((c ≠ '-' : Bool) || headNotHyphen rest) = true := by
      rw [noDoubleHyphen_cons] at h
      simp only [Bool.and_eq_true] at h
      exact h.1
    have hlast : lastNotHyphen rest.reverse = headNotHyphen rest := by
      simp [lastNotHyphen]
    rw [ih h1, hlast, Bool.true_and]
    simp only [Bool.or_eq_true] at h2
    rcases h2 with h' | h' <;> simp [h']

theorem all_dropWhile {p q : Char → Bool} {l : List Char}
    (h : l.all q = true) : (l.dropWhile p).all q = true := by
  rw [List.all_eq_true] at h ⊢
  intro x hx
  exact h x ((List.dropWhile_sublist p).subset hx)

theorem all_reverse {q : Char → Bool} {l : List Char}
    (h : l.all q = true) : l.reverse.all q = true := by
  rw [List.all_eq_true] at h ⊢
  intro x hx
  exact h x (List.mem_reverse.mp hx)

/-- Trimming hyphens (`trimHyphens`) establishes the canonical form on any input that already
satisfies the character and run constraints. -/
theorem canonicalTag_trimHyphens {l : List Char}
    (hall : l.all allowedTagChar = true) (hdh : noDoubleHyphen l = true) :
    canonicalTag (trimHyphens l) = true := by
  unfold trimHyphens canonicalTag
  set l1 := l.dropWhile (fun c => c = '-') with hl1
  have hall1 : l1.all allowedTagChar = true := all_dropWhile hall
  have hdh1 : noDoubleHyphen l1 = true := noDoubleHyphen_dropWhile hdh
  have hhead1 : headNotHyphen l1 = true := headNotHyphen_dropWhile l
  set l2 := l1.reverse.dropWhile (fun c => c = '-') with hl2
  have hall2 : l2.reverse.all allowedTagChar = true := all_reverse (all_dropWhile (all_reverse hall1))
  have hdh2 : noDoubleHyphen l2.reverse = true :=
    noDoubleHyphen_reverse (noDoubleHyphen_dropWhile (noDoubleHyphen_reverse hdh1))
  have hlast2 : lastNotHyphen l2.reverse = true := by
    simpa [lastNotHyphen] using headNotHyphen_dropWhile l1.reverse
  have hhead2 : headNotHyphen l2.reverse = true := by
    cases hc : l1 with
    | nil => simp [hl2, hc, headNotHyphen]
    | cons x r =>
      have hx : x ≠ '-' := by
        have := hhead1
        rw [hc] at this
        simpa [headNotHyphen] using this
      have hx' : (fun c => (c = '-' : Bool)) x = false := by simp [hx]
      have : l2 = r.reverse.dropWhile (fun c => c = '-') ++ [x] := by
        rw [hl2, hc, List.reverse_cons, dropWhile_append_singleton hx']
      rw [this, List.reverse_append]
      simp [headNotHyphen, hx]
  simp [hall2, hdh2, hhead2, hlast2]

/-- Every output of `sanitizeTagComponent` is in canonical form: only
lower-case alphanumerics, periods and hyphens, hyphens never adjacent, and
no leading or trailing hyphen. -/
theorem canonicalTag_sanitize (s : String) :
    canonicalTag (sanitizeTagComponent s).data = true := by
  unfold sanitizeTagComponent
  exact canonicalTag_trimHyphens (sanitizeLoop_allowed _ false) (sanitizeLoop_noDH _ false).1

theorem lastNotHyphen_cons {c : Char} {l : List Char} (h : l ≠ []) :
    lastNotHyphen (c :: l) = lastNotHyphen l := by
  simp only [lastNotHyphen, List.reverse_cons]
  rw [headNotHyphen_append_singleton]
  simp [h]

theorem allowedTagChar_cases {c : Char} (h : allowedTagChar c = true) :
    isLowerAlnum c = true ∨ c = '.' ∨ c = '-' := by
  simp only [allowedTagChar, Bool.or_eq_true, decide_eq_true_eq] at h
  tauto

theorem lowerChar_allowed {c : Char} (h : allowedTagChar c = true) : lowerChar c = c := by
  unfold lowerChar
  split
  case isTrue hAZ =>
    exfalso
    rcases allowedTagChar_cases h with hc | hc | hc
    · simp only [isLowerAlnum, Bool.or_eq_true, Bool.and_eq_true, decide_eq_true_eq] at hc
      rcases hc with ⟨h1, _⟩ | ⟨_, h2⟩
      · exact absurd (le_trans h1 hAZ.2) (by decide)
      · exact absurd (le_trans hAZ.1 h2) (by decide)
    · subst hc; exact absurd hAZ (by decide)
    · subst hc; exact absurd hAZ (by decide)
  case isFalse => rfl

theorem allowedTagChar_not_space {c : Char} (h : allowedTagChar c = true) :
    isGoSpace c = false := by
  cases hx : isGoSpace c
  · rfl
  · exfalso
    simp only [isGoSpace, Bool.or_eq_true, decide_eq_true_eq] at hx
    rcases hx with ((((h1 | h1) | h1) | h1) | h1) | h1 <;> (subst h1; exact absurd h (by decide))

theorem sanitizeLoop_fixed :
    ∀ l : List Char, l.all allowedTagChar = true → noDoubleHyphen l = true →
      lastNotHyphen l = true →
      sanitizeLoop l false = l ∧ (headNotHyphen l = true → sanitizeLoop l true = l) := by
  intro l
  induction l with
  | nil => intro _ _ _; exact ⟨rfl, fun _ => rfl⟩
  | cons c rest ih =>
    intro hall hdh hlast
    have hallc : allowedTagChar c = true := by
      simp only [List.all_cons, Bool.and_eq_true] at hall
      exact hall.1
    have hallr : rest.all allowedTagChar = true := by
      simp only [List.all_cons, Bool.and_eq_true] at hall
      exact hall.2
    have hdhr : noDoubleHyphen rest = true := noDoubleHyphen_tail hdh
    have hlastr : rest ≠ [] → lastNotHyphen rest = true := by
      intro hre
      rw [← lastNotHyphen_cons hre]
      exact hlast
    rcases allowedTagChar_cases hallc with hc | hc | hc
    · have hrest : sanitizeLoop rest false = rest := by
        rcases Classical.em (rest = []) with hre | hre
        · subst hre; rfl
        · exact (ih hallr hdhr (hlastr hre)).1
      exact ⟨by simp [sanitizeLoop, hc, hrest], fun _ => by simp [sanitizeLoop, hc, hrest]⟩
    · subst hc
      have hrest : sanitizeLoop rest false = rest := by
        rcases Classical.em (rest = []) with hre | hre
        · subst hre; rfl
        · exact (ih hallr hdhr (hlastr hre)).1
      have h1 : isLowerAlnum '.' = false := by decide
      exact ⟨by simp [sanitizeLoop, h1, hrest], fun _ => by simp [sanitizeLoop, h1, hrest]⟩
    · subst hc
      have hre : rest ≠ [] := by
        intro h0
        subst h0
        simp [lastNotHyphen, headNotHyphen] at hlast
      have hheadr : headNotHyphen rest = true := by
        rw [noDoubleHyphen_cons] at hdh
        simp only [Bool.and_eq_true, Bool.or_eq_true] at hdh
        rcases hdh.1 with h' | h'
        · exact absurd h' (by decide)
        · exact h'
      have hrest : sanitizeLoop rest true = rest :=
        (ih hallr hdhr (hlastr hre)).2 hheadr
      have h1 : isLowerAlnum '-' = false := by decide
      have h2 : ('-' : Char) ≠ '.' := by decide
      have h3 : isPunctToHyphen '-' = true := by decide
      refine ⟨by simp [sanitizeLoop, h1, h2, h3, hrest], ?_⟩
      intro hhead
      simp [headNotHyphen] at hhead

theorem dropWhile_eq_self_of_all {p : Char → Bool} :
    ∀ {l : List Char}, (∀ c ∈ l, p c = false) → l.dropWhile p = l := by
  intro l
  induction l with
  | nil => intro _; rfl
  | cons c rest _ =>
    intro h
    simp [List.dropWhile, h c (by simp)]

theorem map_eq_self_of_all {f : Char → Char} :
    ∀ {l : List Char}, (∀ c ∈ l, f c = c) → l.map f = l := by
  intro l
  induction l with
  | nil => intro _; rfl
  | cons c rest ih =>
    intro h
    simp only [List.map_cons, h c (by simp), ih (fun x hx => h x (by simp [hx]))]

theorem goTrim_eq_self {l : List Char} (h : ∀ c ∈ l, isGoSpace c = false) :
    goTrim l = l := by
  unfold goTrim
  rw [dropWhile_eq_self_of_all h,
    dropWhile_eq_self_of_all (fun c hc => h c (List.mem_reverse.mp hc)),
    List.reverse_reverse]

theorem dropWhile_hyphen_eq_self {l : List Char} (h : headNotHyphen l = true) :
    l.dropWhile (fun c => c = '-') = l := by
  cases l with
  | nil => rfl
  | cons c rest =>
    have hc : c ≠ '-' := by simpa [headNotHyphen] using h
    simp [List.dropWhile, hc]

theorem trimHyphens_eq_self {l : List Char} (hhead : headNotHyphen l = true)
    (hlast : lastNotHyphen l = true) : trimHyphens l = l := by
  unfold trimHyphens
  rw [dropWhile_hyphen_eq_self hhead, dropWhile_hyphen_eq_self hlast,
    List.reverse_reverse]

theorem canonicalTag_parts {l : List Char} (h : canonicalTag l = true) :
    l.all allowedTagChar = true ∧ noDoubleHyphen l = true ∧
      headNotHyphen l = true ∧ lastNotHyphen l = true := by
  simp only [canonicalTag, Bool.and_eq_true] at h
  exact ⟨h.1.1.1, h.1.1.2, h.1.2, h.2⟩

theorem sanitize_canonical_fixed {l : List Char} (h : canonicalTag l = true) :
    sanitizeTagComponent ⟨l⟩ = ⟨l⟩ := by
  obtain ⟨hall, hdh, hhead, hlast⟩ := canonicalTag_parts h
  have hmem := List.all_eq_true.mp hall
  unfold sanitizeTagComponent
  rw [show (⟨l⟩ : String).data = l from rfl,
    goTrim_eq_self (fun c hc => allowedTagChar_not_space (hmem c hc)),
    map_eq_self_of_all (fun c hc => lowerChar_allowed (hmem c hc)),
    (sanitizeLoop_fixed l hall hdh hlast).1,
    trimHyphens_eq_self hhead hlast]

/-- Idempotence: `sanitizeTagComponent` fixes every normalized name. -/
theorem sanitize_idempotent (s : String) :
    sanitizeTagComponent (sanitizeTagComponent s) = sanitizeTagComponent s :=
  sanitize_canonical_fixed (canonicalTag_sanitize s)

/-! Section: Deduplication lemmas -/

theorem stringContains_iff (l : List String) (a : String) :
    l.contains a = true ↔ a ∈ l := by
  induction l with
  | nil => simp
  | cons x rest ih =>
    by_cases h : a = x
    · subst h
      simp [List.contains_cons]
    · have hb : (a == x) = false := beq_false_of_ne h
      simp [List.contains_cons, hb, h, ih]

theorem dedupeAux_cons (s : toolDescriptor) (rest : List toolDescriptor) (seen : List String) :
    dedupeAux (s :: rest) seen =
      (if sanitizeTagComponent s.name = "" then dedupeAux rest seen
       else if seen.contains (sanitizeTagComponent s.name) = true then dedupeAux rest seen
       else resolveDescriptor s :: dedupeAux rest (sanitizeTagComponent s.name :: seen)) := rfl

theorem mem_dedupeAux :
    ∀ (l : List toolDescriptor) (seen : List String) (d : toolDescriptor),
      d ∈ dedupeAux l seen →
      d.name ∉ seen ∧ d.name ≠ "" ∧ sanitizeTagComponent d.name = d.name := by
  intro l
  induction l with
  | nil => intro seen d hd; simp [dedupeAux] at hd
  | cons s rest ih =>
    intro seen d hd
    rw [dedupeAux_cons] at hd
    by_cases h1 : sanitizeTagComponent s.name = ""
    · rw [if_pos h1] at hd
      exact ih seen d hd
    · rw [if_neg h1] at hd
      by_cases h2 : seen.contains (sanitizeTagComponent s.name) = true
      · rw [if_pos h2] at hd
        exact ih seen d hd
      · rw [if_neg h2] at hd
        rcases List.mem_cons.mp hd with hd | hd
        · subst hd
          refine ⟨?_, h1, sanitize_idempotent s.name⟩
          intro hmem
          exact h2 ((stringContains_iff seen _).mpr hmem)
        · obtain ⟨hns, hne, hfix⟩ := ih _ d hd
          exact ⟨fun hmem => hns (List.mem_cons_of_mem _ hmem), hne, hfix⟩

theorem nodup_dedupeAux :
    ∀ (l : List toolDescriptor) (seen : List String),
      ((dedupeAux l seen).map (fun d => d.name)).Nodup := by
  intro l
  induction l with
  | nil => intro seen; simp [dedupeAux]
  | cons s rest ih =>
    intro seen
    rw [dedupeAux_cons]
    by_cases h1 : sanitizeTagComponent s.name = ""
    · rw [if_pos h1]; exact ih seen
    · rw [if_neg h1]
      by_cases h2 : seen.contains (sanitizeTagComponent s.name) = true
      · rw [if_pos h2]; exact ih seen
      · rw [if_neg h2]
        simp only [List.map_cons, List.nodup_cons]
        constructor
        · intro hmem
          obtain ⟨d, hd, hname⟩ := List.mem_map.mp hmem
          have := (mem_dedupeAux _ _ d hd).1
          rw [hname] at this
          exact this (List.mem_cons_self _ _)
        · exact ih _

theorem find_dedupeAux :
    ∀ (l : List toolDescriptor) (seen : List String) (k : String),
      k ≠ "" → k ∉ seen →
      (dedupeAux l seen).find? (fun d => d.name == k) =
        (l.find? (fun s => sanitizeTagComponent s.name == k)).map resolveDescriptor := by
  intro l
  induction l with
  | nil => intro seen k _ _; simp [dedupeAux]
  | cons s rest ih =>
    intro seen k hk hks
    rw [dedupeAux_cons]
    by_cases h1 : sanitizeTagComponent s.name = ""
    · rw [if_pos h1]
      have hpred : (sanitizeTagComponent s.name == k) = false := by
        rw [h1]
        exact beq_false_of_ne (Ne.symm hk)
      rw [List.find?_cons_of_neg _ (by simp [hpred]), ih seen k hk hks]
    · rw [if_neg h1]
      by_cases h2 : seen.contains (sanitizeTagComponent s.name) = true
      · have hne : sanitizeTagComponent s.name ≠ k := by
          intro he
          exact hks (he ▸ (stringContains_iff seen _).mp h2)
        rw [if_pos h2, List.find?_cons_of_neg _ (by simp [hne]), ih seen k hk hks]
      · rw [if_neg h2]
        by_cases h3 : sanitizeTagComponent s.name = k
        · rw [List.find?_cons_of_pos _ (by simp [resolveDescriptor, h3]),
            List.find?_cons_of_pos _ (by simp [h3])]
          rfl
        · rw [List.find?_cons_of_neg _ (by simp [resolveDescriptor, h3]),
            List.find?_cons_of_neg _ (by simp [h3])]
          refine ih _ k hk ?_
          intro hmem
          rcases List.mem_cons.mp hmem with he | he
          · exact h3 he.symm
          · exact hks he

theorem dedupeAux_drop_empty :
    ∀ (l1 : List toolDescriptor) (seen : List String) (d : toolDescriptor)
      (l2 : List toolDescriptor), sanitizeTagComponent d.name = "" →
      dedupeAux (l1 ++ d :: l2) seen = dedupeAux (l1 ++ l2) seen := by
  intro l1
  induction l1 with
  | nil =>
    intro seen d l2 h
    simp only [List.nil_append, dedupeAux_cons, if_pos h]
  | cons s rest ih =>
    intro seen d l2 h
    simp only [List.cons_append, dedupeAux_cons]
    by_cases h1 : sanitizeTagComponent s.name = ""
    · rw [if_pos h1, if_pos h1, ih _ _ _ h]
    · rw [if_neg h1, if_neg h1]
      by_cases h2 : seen.contains (sanitizeTagComponent s.name) = true
      · rw [if_pos h2, if_pos h2, ih _ _ _ h]
      · rw [if_neg h2, if_neg h2, ih _ _ _ h]

/-! Section: Association-list lemmas -/

theorem lookupAssoc_insert_self {α : Type} :
    ∀ (l : List (String × α)) (k : String) (v : α),
      lookupAssoc (insertAssoc l k v) k = some v := by
  intro l
  induction l with
  | nil => intro k v; simp [insertAssoc, lookupAssoc]
  | cons kv rest ih =>
    intro k v
    obtain ⟨k0, v0⟩ := kv
    by_cases h : k0 = k
    · simp [insertAssoc, h, lookupAssoc]
    · simp [insertAssoc, h, lookupAssoc, ih]

theorem lookupAssoc_insert_ne {α : Type} :
    ∀ (l : List (String × α)) (k k' : String) (v : α), k' ≠ k →
      lookupAssoc (insertAssoc l k v) k' = lookupAssoc l k' := by
  intro l
  induction l with
  | nil =>
    intro k k' v h
    have h' : ¬(k = k') := fun he => h he.symm
    simp [insertAssoc, lookupAssoc, h']
  | cons kv rest ih =>
    intro k k' v h
    obtain ⟨k0, v0⟩ := kv
    by_cases h0 : k0 = k
    · subst h0
      have h0' : ¬(k0 = k') := fun he => h he.symm
      simp [insertAssoc, lookupAssoc, h0']
    · simp only [insertAssoc, if_neg h0]
      by_cases h1 : k0 = k'
      · simp [lookupAssoc, h1]
      · simp [lookupAssoc, h1, ih _ _ _ h]

theorem lookupAssoc_eq_none {α : Type} :
    ∀ (l : List (String × α)) (k : String), k ∉ l.map Prod.fst →
      lookupAssoc l k = none := by
  intro l
  induction l with
  | nil => intro k _; rfl
  | cons kv rest ih =>
    intro k h
    obtain ⟨k0, v0⟩ := kv
    simp only [List.map_cons, List.mem_cons] at h
    push_neg at h
    have h' : ¬(k0 = k) := fun he => h.1 he.symm
    simp [lookupAssoc, h', ih _ h.2]

theorem lookupAssoc_mergeAssoc {α : Type} :
    ∀ (user base : List (String × α)) (k : String), (user.map Prod.fst).Nodup →
      lookupAssoc (mergeAssoc base user) k =
        ((lookupAssoc user k).rec (lookupAssoc base k) (fun v => some v) : Option α) := by
  intro user
  induction user with
  | nil => intro base k _; simp [mergeAssoc, lookupAssoc]
  | cons kv rest ih =>
    intro base k hnd
    obtain ⟨k0, v0⟩ := kv
    simp only [List.map_cons, List.nodup_cons] at hnd
    have hstep : mergeAssoc base ((k0, v0) :: rest) = mergeAssoc (insertAssoc base k0 v0) rest := by
      simp [mergeAssoc]
    rw [hstep, ih _ k hnd.2]
    by_cases h : k = k0
    · subst h
      rw [lookupAssoc_eq_none rest k hnd.1, lookupAssoc_insert_self]
      simp [lookupAssoc]
    · rw [lookupAssoc_insert_ne _ _ _ _ h]
      have h' : ¬(k0 = k) := fun he => h he.symm
      simp [lookupAssoc, h']

theorem mem_keys_insertAssoc {α : Type} :
    ∀ (l : List (String × α)) (k k' : String) (v : α),
      k' ∈ (insertAssoc l k v).map Prod.fst → k' = k ∨ k' ∈ l.map Prod.fst := by
  intro l
  induction l with
  | nil => intro k k' v h; simpa [insertAssoc] using h
  | cons kv rest ih =>
    intro k k' v h
    obtain ⟨k0, v0⟩ := kv
    by_cases h0 : k0 = k
    · simp only [insertAssoc, if_pos h0, List.map_cons, List.mem_cons] at h
      rcases h with h | h
      · exact Or.inl h
      · exact Or.inr (by simp [h])
    · simp only [insertAssoc, if_neg h0, List.map_cons, List.mem_cons] at h
      rcases h with h | h
      · exact Or.inr (by simp [h])
      · rcases ih _ _ _ h with h' | h'
        · exact Or.inl h'
        · exact Or.inr (by simp [h'])

/-! Section: Agent-manifest map lemmas -/

theorem agentToolsStep_keys {u : List String} {acc : List (String × String)}
    {info : idiomaticInfo} {k : String}
    (hacc : ∀ k' ∈ acc.map Prod.fst, u.contains k' = false)
    (hk : k ∈ (agentToolsStep u acc info).map Prod.fst) : u.contains k = false := by
  unfold agentToolsStep at hk
  by_cases h1 : goTrimString info.version = ""
  · rw [if_pos h1] at hk
    exact hacc k hk
  · rw [if_neg h1] at hk
    by_cases h2 : u.contains (if info.configKey = "" then info.tool else info.configKey) = true
    · rw [if_pos h2] at hk
      exact hacc k hk
    · rw [if_neg h2] at hk
      rcases mem_keys_insertAssoc _ _ _ _ hk with h | h
      · subst h
        cases hu : u.contains (if info.configKey = "" then info.tool else info.configKey)
        · rfl
        · exact absurd hu h2
      · exact hacc k h

theorem foldl_agentToolsStep_keys (u : List String) :
    ∀ (infos : List idiomaticInfo) (acc : List (String × String)),
      (∀ k' ∈ acc.map Prod.fst, u.contains k' = false) →
      ∀ k ∈ (infos.foldl (agentToolsStep u) acc).map Prod.fst, u.contains k = false := by
  intro infos
  induction infos with
  | nil => intro acc hacc k hk; exact hacc k hk
  | cons info rest ih =>
    intro acc hacc k hk
    rw [List.foldl_cons] at hk
    exact ih _ (fun k' hk' => agentToolsStep_keys hacc hk') k hk

/-- Every key of the generated agent-tools map is absent from the user's
tools table. -/
theorem agentToolsMap_keys_not_user {u : List String} {infos : List idiomaticInfo}
    {ck k : String} (hk : k ∈ (agentToolsMap u infos ck).map Prod.fst) :
    u.contains k = false := by
  unfold agentToolsMap at hk
  have hbase := foldl_agentToolsStep_keys u infos [] (by intro k' hk'; simp at hk')
  by_cases h : u.contains ck = true
  · rw [if_pos h] at hk
    exact hbase k hk
  · rw [if_neg h] at hk
    rcases mem_keys_insertAssoc _ _ _ _ hk with h' | h'
    · rw [h']
      cases hu : u.contains ck
      · rfl
      · exact absurd hu h
    · exact hbase k h'

/-- When the user has not pinned the agent's key, the generated map binds it
to `"latest"`. -/
theorem agentToolsMap_configKey {u : List String} {infos : List idiomaticInfo}
    {ck : String} (h : u.contains ck = false) :
    lookupAssoc (agentToolsMap u infos ck) ck = some "latest" := by
  unfold agentToolsMap
  have h' : ¬(u.contains ck = true) := by
    intro hc
    rw [h] at hc
    exact Bool.false_ne_true hc
  rw [if_neg h']
  exact lookupAssoc_insert_self _ _ _

/-! Section: Sorting lemmas (the `sort.Strings` call in the marshaller) -/

theorem listLe_total : ∀ a b : List Char, listLe a b = true ∨ listLe b a = true := by
  intro a
  induction a with
  | nil => intro b; left; rfl
  | cons x xs ih =>
    intro b
    cases b with
    | nil => right; rfl
    | cons y ys =>
      unfold listLe
      rcases Nat.lt_trichotomy x.toNat y.toNat with h | h | h
      · left
        rw [if_pos h]
      · have h1 : ¬(x.toNat < y.toNat) := by omega
        have h2 : ¬(y.toNat < x.toNat) := by omega
        rcases ih ys with h' | h'
        · left
          rw [if_neg h1, if_neg h2]
          exact h'
        · right
          rw [if_neg h2, if_neg h1]
          exact h'
      · right
        rw [if_pos h]

theorem listLe_trans :
    ∀ a b c : List Char, listLe a b = true → listLe b c = true → listLe a c = true := by
  intro a
  induction a with
  | nil => intro b c _ _; rfl
  | cons x xs ih =>
    intro b c hab hbc
    cases b with
    | nil => exact absurd hab (by simp [listLe])
    | cons y ys =>
      cases c with
      | nil => exact absurd hbc (by simp [listLe])
      | cons z zs =>
        unfold listLe at hab hbc ⊢
        by_cases h1 : x.toNat < y.toNat
        · by_cases h2 : y.toNat < z.toNat
          · rw [if_pos (by omega : x.toNat < z.toNat)]
          · rw [if_neg h2] at hbc
            by_cases h3 : z.toNat < y.toNat
            · rw [if_pos h3] at hbc
              exact absurd hbc (by simp)
            · rw [if_pos (by omega : x.toNat < z.toNat)]
        · rw [if_neg h1] at hab
          by_cases h1' : y.toNat < x.toNat
          · rw [if_pos h1'] at hab
            exact absurd hab (by simp)
          · rw [if_neg h1'] at hab
            by_cases h2 : y.toNat < z.toNat
            · rw [if_pos (by omega : x.toNat < z.toNat)]
            · rw [if_neg h2] at hbc
              by_cases h3 : z.toNat < y.toNat
              · rw [if_pos h3] at hbc
                exact absurd hbc (by simp)
              · rw [if_neg h3] at hbc
                rw [if_neg (by omega : ¬(x.toNat < z.toNat)),
                  if_neg (by omega : ¬(z.toNat < x.toNat))]
                exact ih ys zs hab hbc

instance : IsTotal String (fun a b => stringLe a b = true) :=
  ⟨fun a b => listLe_total a.data b.data⟩

instance : IsTrans String (fun a b => stringLe a b = true) :=
  ⟨fun a b c hab hbc => listLe_trans a.data b.data c.data hab hbc⟩

theorem sortStrings_sorted (l : List String) :
    (sortStrings l).Sorted (fun a b => stringLe a b = true) :=
  List.sorted_insertionSort _ l

theorem sortStrings_perm (l : List String) : List.Perm (sortStrings l) l :=
  List.perm_insertionSort _ l

/-! Section: Transitive-gating lemma: with no user-specified tools the queue never
grows, so every resolved name comes from the agent's direct dependency
list. -/

theorem filter_length_mono {p₁ p₂ : String → Bool} (h : ∀ a, p₂ a = true → p₁ a = true) :
    ∀ l : List String, (l.filter p₂).length ≤ (l.filter p₁).length := by
  intro l
  induction l with
  | nil => simp
  | cons a rest ih =>
    by_cases h2 : p₂ a = true
    · rw [List.filter_cons_of_pos h2, List.filter_cons_of_pos (h a h2)]
      simpa using ih
    · rw [List.filter_cons_of_neg (by simpa using h2)]
      by_cases h1 : p₁ a = true
      · rw [List.filter_cons_of_pos h1]
        exact Nat.le_succ_of_le ih
      · rw [List.filter_cons_of_neg (by simpa using h1)]
        exact ih

theorem filter_length_strict {p₁ p₂ : String → Bool} (h : ∀ a, p₂ a = true → p₁ a = true)
    {x : String} (h1 : p₁ x = true) (h2 : p₂ x = false) :
    ∀ {l : List String}, x ∈ l → (l.filter p₂).length < (l.filter p₁).length := by
  intro l
  induction l with
  | nil => intro hx; simp at hx
  | cons a rest ih =>
    intro hx
    rcases List.mem_cons.mp hx with hx | hx
    · subst hx
      rw [List.filter_cons_of_pos h1, List.filter_cons_of_neg (by simp [h2])]
      exact Nat.lt_succ_of_le (filter_length_mono h rest)
    · by_cases ha2 : p₂ a = true
      · rw [List.filter_cons_of_pos ha2, List.filter_cons_of_pos (h a ha2)]
        simpa using ih hx
      · rw [List.filter_cons_of_neg (by simpa using ha2)]
        by_cases ha1 : p₁ a = true
        · rw [List.filter_cons_of_pos ha1]
          exact Nat.lt_succ_of_lt (ih hx)
        · rw [List.filter_cons_of_neg (by simpa using ha1)]
          exact ih hx

theorem lookupAssoc_mem_keys {α : Type} :
    ∀ (l : List (String × α)) (k : String) (v : α),
      lookupAssoc l k = some v → k ∈ l.map Prod.fst := by
  intro l
  induction l with
  | nil => intro k v h; simp [lookupAssoc] at h
  | cons kv rest ih =>
    intro k v h
    obtain ⟨k0, v0⟩ := kv
    by_cases h0 : k0 = k
    · simp [h0]
    · rw [lookupAssoc, if_neg h0] at h
      simp only [List.map_cons, List.mem_cons]
      exact Or.inr (ih k v h)

theorem depends_nonempty_mem_keys {tools : List (String × ToolConfigEntry)} {toolName : String}
    (h : ((lookupAssoc tools toolName).getD zeroToolEntry).Depends ≠ "") :
    toolName ∈ tools.map Prod.fst := by
  cases hl : lookupAssoc tools toolName with
  | none =>
    rw [hl] at h
    exact absurd rfl h
  | some v => exact lookupAssoc_mem_keys tools toolName v hl

theorem notSeen_step_mono {seen : List String} {t : String} :
    ∀ a : String, (!(t :: seen).contains a) = true → (!seen.contains a) = true := by
  intro a h
  simp only [Bool.not_eq_true'] at h ⊢
  rw [List.contains_cons] at h
  cases hc : seen.contains a
  · rfl
  · rw [hc, Bool.or_true] at h
    exact h

/-- Fuel irrelevance: any two fuels at least the measure give the same
result — the loop always terminates within the measure, matching the
unbounded Go loop. -/
theorem resolveLoop_fuel_irrelevant (tools : List (String × ToolConfigEntry))
    (userTools : List String) :
    ∀ (fuel₁ : Nat) (q seen : List String) (fuel₂ : Nat),
      resolveMeasure tools q seen ≤ fuel₁ → resolveMeasure tools q seen ≤ fuel₂ →
      resolveToolDepsLoop tools userTools fuel₁ q seen =
        resolveToolDepsLoop tools userTools fuel₂ q seen := by
  intro fuel₁
  induction fuel₁ with
  | zero =>
    intro q seen fuel₂ h1 _
    cases q with
    | nil => cases fuel₂ <;> rfl
    | cons t rest =>
      exfalso
      have hq : 1 ≤ resolveMeasure tools (t :: rest) seen := by
        simp only [resolveMeasure, List.length_cons]
        omega
      omega
  | succ fuel₁ ih =>
    intro q seen fuel₂ h1 h2
    cases q with
    | nil => cases fuel₂ <;> rfl
    | cons toolName rest =>
      have hq : 1 ≤ resolveMeasure tools (toolName :: rest) seen := by
        simp only [resolveMeasure, List.length_cons]
        omega
      cases fuel₂ with
      | zero => omega
      | succ fuel₂ =>
        simp only [resolveToolDepsLoop]
        by_cases hseen : seen.contains toolName = true
        · rw [if_pos hseen, if_pos hseen]
          have hm : resolveMeasure tools rest seen + 1 =
              resolveMeasure tools (toolName :: rest) seen := by
            simp [resolveMeasure, List.length_cons]
            omega
          exact ih rest seen fuel₂ (by omega) (by omega)
        · rw [if_neg hseen, if_neg hseen]
          have hKle : (((tools.map Prod.fst).filter
                (fun k => !(toolName :: seen).contains k)).length) ≤
              (((tools.map Prod.fst).filter (fun k => !seen.contains k)).length) :=
            filter_length_mono notSeen_step_mono _
          by_cases hdep : ((lookupAssoc tools toolName).getD zeroToolEntry).Depends = ""
          · rw [if_pos hdep]
            have hm : resolveMeasure tools rest (toolName :: seen) + 1 ≤
                resolveMeasure tools (toolName :: rest) seen := by
              simp only [resolveMeasure, List.length_cons]
              omega
            rw [ih rest (toolName :: seen) fuel₂ (by omega) (by omega)]
          · rw [if_neg hdep]
            by_cases huser : userTools.contains toolName = true
            · rw [if_pos huser]
              have hKlt : (((tools.map Prod.fst).filter
                    (fun k => !(toolName :: seen).contains k)).length) <
                  (((tools.map Prod.fst).filter (fun k => !seen.contains k)).length) := by
                refine filter_length_strict notSeen_step_mono ?_ ?_
                  (depends_nonempty_mem_keys hdep)
                · simp only [Bool.not_eq_true']
                  cases hc : seen.contains toolName
                  · rfl
                  · exact absurd hc hseen
                · simp [List.contains_cons]
              rw [ih (rest ++ [((lookupAssoc tools toolName).getD zeroToolEntry).Depends])
                (toolName :: seen) fuel₂
                (by
                  simp only [resolveMeasure, List.length_append, List.length_cons,
                    List.length_nil] at h1 ⊢
                  omega)
                (by
                  simp only [resolveMeasure, List.length_append, List.length_cons,
                    List.length_nil] at h2 ⊢
                  omega)]
            · rw [if_neg huser]
              have hm : resolveMeasure tools rest (toolName :: seen) + 1 ≤
                  resolveMeasure tools (toolName :: rest) seen := by
                simp only [resolveMeasure, List.length_cons]
                omega
              rw [ih rest (toolName :: seen) fuel₂ (by omega) (by omega)]

/-- The fuel passed by `ResolveToolDeps` is above the initial measure, so
any larger fuel yields the same result: the bounded loop agrees with Go's
unbounded one. -/
theorem ResolveToolDeps_fuel_stable (c : ImageConfig) (agentName : String)
    (userTools : List String) (extra : Nat) :
    (match lookupAssoc c.Agents agentName with
     | none => ([] : List toolDescriptor)
     | some agent =>
        resolveToolDepsLoop c.Tools userTools
          (agent.Depends.length + 2 * c.Tools.length + 1 + extra) agent.Depends []) =
      c.ResolveToolDeps agentName userTools false := by
  unfold ImageConfig.ResolveToolDeps
  cases lookupAssoc c.Agents agentName with
  | none => rfl
  | some agent =>
    have hmeas : resolveMeasure c.Tools agent.Depends [] ≤
        agent.Depends.length + 2 * c.Tools.length + 1 := by
      have hf : ((c.Tools.map Prod.fst).filter (fun k => !([] : List String).contains k)) =
          c.Tools.map Prod.fst := by
        apply List.filter_eq_self.mpr
        intro a _
        rfl
      simp only [resolveMeasure, hf, List.length_map]
      omega
    exact resolveLoop_fuel_irrelevant c.Tools userTools _ agent.Depends [] _
      (by omega) hmeas

/-- General gating invariant of the resolve loop: every emitted name either
was already in the queue or is the `depends` edge of a user-specified tool
(the only way the loop ever enqueues anything). -/
theorem resolveLoop_depends_gated (tools : List (String × ToolConfigEntry))
    (userTools : List String) :
    ∀ (fuel : Nat) (q seen : List String) (d : toolDescriptor),
      d ∈ resolveToolDepsLoop tools userTools fuel q seen →
      d.name ∈ q ∨ ∃ t, userTools.contains t = true ∧
        ((lookupAssoc tools t).getD zeroToolEntry).Depends = d.name := by
  intro fuel
  induction fuel with
  | zero => intro q seen d hd; simp [resolveToolDepsLoop] at hd
  | succ fuel ih =>
    intro q seen d hd
    cases q with
    | nil => simp [resolveToolDepsLoop] at hd
    | cons toolName rest =>
      simp only [resolveToolDepsLoop] at hd
      by_cases h1 : seen.contains toolName = true
      · rw [if_pos h1] at hd
        rcases ih rest seen d hd with h | h
        · exact Or.inl (List.mem_cons_of_mem _ h)
        · exact Or.inr h
      · rw [if_neg h1] at hd
        rcases List.mem_cons.mp hd with hd | hd
        · rw [hd]
          exact Or.inl (List.mem_cons_self _ _)
        · by_cases hdep : ((lookupAssoc tools toolName).getD zeroToolEntry).Depends = ""
          · rw [if_pos hdep] at hd
            rcases ih rest _ d hd with h | h
            · exact Or.inl (List.mem_cons_of_mem _ h)
            · exact Or.inr h
          · rw [if_neg hdep] at hd
            by_cases huser : userTools.contains toolName = true
            · rw [if_pos huser] at hd
              rcases ih _ _ d hd with h | h
              · rcases List.mem_append.mp h with h' | h'
                · exact Or.inl (List.mem_cons_of_mem _ h')
                · refine Or.inr ⟨toolName, huser, ?_⟩
                  have := List.mem_singleton.mp h'
                  exact this.symm
              · exact Or.inr h
            · rw [if_neg huser] at hd
              rcases ih rest _ d hd with h | h
              · exact Or.inl (List.mem_cons_of_mem _ h)
              · exact Or.inr h

theorem resolveLoop_no_user_subset (tools : List (String × ToolConfigEntry)) :
    ∀ (fuel : Nat) (q seen : List String) (d : toolDescriptor),
      d ∈ resolveToolDepsLoop tools [] fuel q seen → d.name ∈ q := by
  intro fuel
  induction fuel with
  | zero => intro q seen d hd; simp [resolveToolDepsLoop] at hd
  | succ fuel ih =>
    intro q seen d hd
    cases q with
    | nil => simp [resolveToolDepsLoop] at hd
    | cons toolName rest =>
      simp only [resolveToolDepsLoop] at hd
      by_cases h1 : seen.contains toolName = true
      · rw [if_pos h1] at hd
        exact List.mem_cons_of_mem _ (ih rest seen d hd)
      · rw [if_neg h1] at hd
        have hqueue :
            (if ((lookupAssoc tools toolName).getD zeroToolEntry).Depends = "" then rest
             else if (([] : List String).contains toolName) = true then rest ++ [((lookupAssoc tools toolName).getD zeroToolEntry).Depends]
             else rest) = rest := by
          by_cases hdep : ((lookupAssoc tools toolName).getD zeroToolEntry).Depends = ""
          · rw [if_pos hdep]
          · rw [if_neg hdep, if_neg (by simp [List.contains])]
        rw [hqueue] at hd
        rcases List.mem_cons.mp hd with hd | hd
        · subst hd
          exact List.mem_cons_self _ _
        · exact List.mem_cons_of_mem _ (ih _ _ d hd)

/-! Section: Remaining helper lemmas for the claim theorems -/

theorem lookupAssoc_merge_orElse {α : Type} (user base : List (String × α)) (k : String)
    (h : (user.map Prod.fst).Nodup) :
    lookupAssoc (mergeAssoc base user) k =
      orElseOpt (lookupAssoc user k) (lookupAssoc base k) := by
  rw [lookupAssoc_mergeAssoc user base k h]
  cases lookupAssoc user k <;> rfl

/-- In a list of descriptors with distinct names, `find?` by a member's name
returns that member. -/
theorem find_name_of_mem_nodup :
    ∀ (l : List toolDescriptor), ((l.map (fun d => d.name)).Nodup) →
      ∀ d ∈ l, l.find? (fun x => x.name == d.name) = some d := by
  intro l
  induction l with
  | nil => intro _ d hd; simp at hd
  | cons x rest ih =>
    intro hnd d hd
    simp only [List.map_cons, List.nodup_cons] at hnd
    rcases List.mem_cons.mp hd with hd | hd
    · subst hd
      exact List.find?_cons_of_pos _ (by simp)
    · have hne : x.name ≠ d.name := by
        intro he
        exact hnd.1 (he ▸ List.mem_map.mpr ⟨d, hd, rfl⟩)
      rw [List.find?_cons_of_neg _ (by simp [hne])]
      exact ih hnd.2 d hd

/-- Every member of a dedup result is the resolution of the first input
descriptor with its normalized name. -/
theorem dedupe_first_wins {specs : List toolDescriptor} {d : toolDescriptor}
    (hd : d ∈ dedupeToolSpecs specs) :
    ∃ s, specs.find? (fun x => sanitizeTagComponent x.name == d.name) = some s ∧
      d = resolveDescriptor s := by
  obtain ⟨-, hne, -⟩ := mem_dedupeAux specs [] d hd
  have hfd : (dedupeToolSpecs specs).find? (fun x => x.name == d.name) = some d :=
    find_name_of_mem_nodup _ (nodup_dedupeAux specs []) d hd
  have := find_dedupeAux specs [] d.name hne (by simp)
  rw [dedupeToolSpecs] at hfd
  rw [hfd] at this
  obtain ⟨s, hs, hmap⟩ := (Option.map_eq_some'.mp this.symm)
  exact ⟨s, hs, hmap.symm⟩

/-! Section: The claims -/

/-- C1: the claim says two runs of `collectToolSpecs` + renderers on fixed
inputs produce byte-identical output (same resolved descriptor order, same
image tag).  The code, however, orders the native manifest's descriptors by
a Go `range` over the parsed `tools` map (`parseMiseToml`,
src/unnamed/part_000 line 501), whose iteration order is randomized per run;
this theorem evaluates the code at a `mise.toml` declaring `node = "18"`
and `python = "3"`: the two possible enumeration orders of that same table
yield different resolved orders and different image tags, so the output is
not byte-identical across runs. -/
theorem C1_image_tag_depends_on_map_iteration_order :
    List.Perm [("node", TomlVal.str "18"), ("python", TomlVal.str "3")]
      [("python", TomlVal.str "3"), ("node", TomlVal.str "18")] ∧
    buildImageName (dedupeToolSpecs (parseMiseToml (some ⟨some miseTomlToolsOrderA⟩))) =
      "mheap/agent-en-place:node-18-python-3" ∧
    buildImageName (dedupeToolSpecs (parseMiseToml (some ⟨some miseTomlToolsOrderB⟩))) =
      "mheap/agent-en-place:python-3-node-18" ∧
    buildImageName (dedupeToolSpecs (parseMiseToml (some ⟨some miseTomlToolsOrderA⟩))) ≠
      buildImageName (dedupeToolSpecs (parseMiseToml (some ⟨some miseTomlToolsOrderB⟩))) := by
  refine ⟨?_, ?_, ?_, ?_⟩ <;> decide

/-- C2: the version from the higher-precedence source wins: every resolved
descriptor is the resolution of the FIRST occurrence (in collection order:
environment overrides, generic manifest, native manifest, idiomatic files,
config dependencies) of its normalized name, and in particular an
environment override `node@20` together with a native manifest declaring
`node = "18"` resolves `node` to version `20`.  The last two conjuncts pin
the specified-tools-only gate of the modelled collection: with the flag set
and env `python@3.12`, only `python` and the agent's own package are
resolved (the generic manifest's `go`, the native manifest's `node`/`ruby`,
and claude's config dependency `node` are all absent), while the flag
without any override list is ignored and the native manifest's `node = "18"`
still resolves. -/
theorem C2_precedence_first_wins (specs : List toolDescriptor) (d : toolDescriptor)
    (hd : d ∈ dedupeToolSpecs specs) :
    (∃ s, specs.find? (fun x => sanitizeTagComponent x.name == d.name) = some s ∧
        d = resolveDescriptor s) ∧
    ((collectToolSpecsEnv "node@20" false none (some ⟨some c2MiseDoc⟩) []
        claudeToolSpec exampleConfig "claude").specs.find?
          (fun x => x.name == "node")).map (fun x => x.version) = some "20" ∧
    ((collectToolSpecsEnv "python@3.12" true (some "go 1.21\n")
        (some ⟨some c2SpecifiedOnlyMiseDoc⟩) [] claudeToolSpec exampleConfig
        "claude").specs.map (fun d => (d.name, d.version))) =
      [("python", "3.12"), ("npm:@anthropic-ai/claude-code", "latest")] ∧
    ((collectToolSpecsEnv "" true none (some ⟨some c2MiseDoc⟩) []
        claudeToolSpec exampleConfig "claude").specs.find?
          (fun x => x.name == "node")).map (fun x => x.version) = some "18" := by
  exact ⟨dedupe_first_wins hd, by decide, by decide, by decide⟩

/-- Witness for C2 at a concrete input: the environment-override descriptor
`node@20` occurring before the manifest descriptor `node@18`. -/
theorem C2_precedence_first_wins_witness :
    ({ name := "node", version := "20", labelName := "node", source := ToolSource.envVar } ∈
        dedupeToolSpecs
          [{ name := "node", version := "20", labelName := "", source := ToolSource.envVar },
           { name := "node", version := "18", labelName := "", source := ToolSource.user }]) ∧
    ((∃ s, ([{ name := "node", version := "20", labelName := "", source := ToolSource.envVar },
             { name := "node", version := "18", labelName := "", source := ToolSource.user }].find?
              (fun x => sanitizeTagComponent x.name ==
                ({ name := "node", version := "20", labelName := "node", source := ToolSource.envVar } : toolDescriptor).name) = some s ∧
          ({ name := "node", version := "20", labelName := "node", source := ToolSource.envVar } : toolDescriptor) = resolveDescriptor s)) ∧
      ((collectToolSpecsEnv "node@20" false none (some ⟨some c2MiseDoc⟩) []
          claudeToolSpec exampleConfig "claude").specs.find?
            (fun x => x.name == "node")).map (fun x => x.version) = some "20" ∧
      ((collectToolSpecsEnv "python@3.12" true (some "go 1.21\n")
          (some ⟨some c2SpecifiedOnlyMiseDoc⟩) [] claudeToolSpec exampleConfig
          "claude").specs.map (fun d => (d.name, d.version))) =
        [("python", "3.12"), ("npm:@anthropic-ai/claude-code", "latest")] ∧
      ((collectToolSpecsEnv "" true none (some ⟨some c2MiseDoc⟩) []
          claudeToolSpec exampleConfig "claude").specs.find?
            (fun x => x.name == "node")).map (fun x => x.version) = some "18") :=
  ⟨by decide, C2_precedence_first_wins _ _ (by decide)⟩

/-- C3: in `ResolveToolDeps` a tool's own `depends` edge is followed only
when that tool is in the caller-supplied `userTools` set: with an empty
user set every resolved name comes from the agent's direct dependency list
(no `depends` edge of a config-sourced tool is expanded), and on the
default configuration (claude depends on node, node depends on python)
`python` is absent without user input but present when the user supplied
`node`. -/
theorem C3_transitive_gating :
    (∀ (cfg : ImageConfig) (agentName : String) (d : toolDescriptor),
        d ∈ cfg.ResolveToolDeps agentName [] false →
        d.name ∈ ((lookupAssoc cfg.Agents agentName).map (fun a => a.Depends)).getD []) ∧
    (∀ (cfg : ImageConfig) (agentName : String) (userTools : List String) (d : toolDescriptor),
        d ∈ cfg.ResolveToolDeps agentName userTools false →
        d.name ∈ ((lookupAssoc cfg.Agents agentName).map (fun a => a.Depends)).getD [] ∨
          ∃ t, userTools.contains t = true ∧
            ((lookupAssoc cfg.Tools t).getD zeroToolEntry).Depends = d.name) ∧
    ((exampleConfig.ResolveToolDeps "claude" [] false).map (fun d => d.name)).contains "python" = false ∧
    ((exampleConfig.ResolveToolDeps "claude" ["node"] false).map (fun d => d.name)).contains "python" = true := by
  refine ⟨?_, ?_, by decide, by decide⟩
  · intro cfg agentName d hd
    unfold ImageConfig.ResolveToolDeps at hd
    cases hh : lookupAssoc cfg.Agents agentName with
    | none => rw [hh] at hd; simp at hd
    | some agent =>
      rw [hh] at hd
      simpa [hh] using resolveLoop_no_user_subset cfg.Tools _ _ _ d hd
  · intro cfg agentName userTools d hd
    unfold ImageConfig.ResolveToolDeps at hd
    cases hh : lookupAssoc cfg.Agents agentName with
    | none => rw [hh] at hd; simp at hd
    | some agent =>
      rw [hh] at hd
      rcases resolveLoop_depends_gated cfg.Tools userTools _ _ _ d hd with h | h
      · left
        simpa [hh] using h
      · exact Or.inr h

/-- Witness for C3's gating component at a concrete input: the `node`
descriptor resolved for `claude` with no user tools indeed lies in claude's
direct dependency list. -/
theorem C3_transitive_gating_witness :
    ({ name := "node", version := "latest", labelName := "", source := ToolSource.config } ∈
        exampleConfig.ResolveToolDeps "claude" [] false) ∧
    ({ name := "node", version := "latest", labelName := "", source := ToolSource.config } :
        toolDescriptor).name ∈
      ((lookupAssoc exampleConfig.Agents "claude").map (fun a => a.Depends)).getD [] :=
  ⟨by decide, C3_transitive_gating.1 exampleConfig "claude" _ (by decide)⟩

/-- C4: `mergeConfigs` merges the `tools` and `agents` maps per key (overlay
wins, unmatched base keys survive), replaces `image.base` only when the
overlay value is non-empty, replaces `image.packages` and `mise.install`
wholesale only when the overlay list is non-empty, merges `mise.env` per
key, and appends the overlay's `image_customizations.packages` to the
base's list. -/
theorem C4_mergeConfigs_semantics (base user : ImageConfig) (k : String)
    (hT : (user.Tools.map Prod.fst).Nodup) (hA : (user.Agents.map Prod.fst).Nodup)
    (hE : (user.Mise.Env.map Prod.fst).Nodup) :
    lookupAssoc (mergeConfigs base user).Tools k =
      orElseOpt (lookupAssoc user.Tools k) (lookupAssoc base.Tools k) ∧
    lookupAssoc (mergeConfigs base user).Agents k =
      orElseOpt (lookupAssoc user.Agents k) (lookupAssoc base.Agents k) ∧
    (mergeConfigs base user).Image.Base =
      (if user.Image.Base = "" then base.Image.Base else user.Image.Base) ∧
    (mergeConfigs base user).Image.Packages =
      (if user.Image.Packages = [] then base.Image.Packages else user.Image.Packages) ∧
    (mergeConfigs base user).Mise.Install =
      (if user.Mise.Install = [] then base.Mise.Install else user.Mise.Install) ∧
    lookupAssoc (mergeConfigs base user).Mise.Env k =
      orElseOpt (lookupAssoc user.Mise.Env k) (lookupAssoc base.Mise.Env k) ∧
    (mergeConfigs base user).ImageCustoms.Packages =
      base.ImageCustoms.Packages ++ user.ImageCustoms.Packages := by
  refine ⟨lookupAssoc_merge_orElse _ _ _ hT, lookupAssoc_merge_orElse _ _ _ hA,
    rfl, rfl, rfl, ?_, ?_⟩
  · show lookupAssoc
      (if user.Mise.Env = [] then base.Mise.Env else mergeAssoc base.Mise.Env user.Mise.Env) k = _
    by_cases h : user.Mise.Env = []
    · rw [if_pos h, h]
      rfl
    · rw [if_neg h]
      exact lookupAssoc_merge_orElse _ _ _ hE
  · show (if user.ImageCustoms.Packages = [] then base.ImageCustoms.Packages
      else base.ImageCustoms.Packages ++ user.ImageCustoms.Packages) = _
    by_cases h : user.ImageCustoms.Packages = []
    · rw [if_pos h, h, List.append_nil]
    · rw [if_neg h]

/-- Witness for C4 at a concrete pair of layers and key. -/
theorem C4_mergeConfigs_semantics_witness :
    ((overlayConfigExample.Tools.map Prod.fst).Nodup ∧
      (overlayConfigExample.Agents.map Prod.fst).Nodup ∧
      (overlayConfigExample.Mise.Env.map Prod.fst).Nodup) ∧
    (lookupAssoc (mergeConfigs exampleConfig overlayConfigExample).Tools "ruby_compile" =
        orElseOpt (lookupAssoc overlayConfigExample.Tools "ruby_compile")
          (lookupAssoc exampleConfig.Tools "ruby_compile") ∧
      lookupAssoc (mergeConfigs exampleConfig overlayConfigExample).Agents "ruby_compile" =
        orElseOpt (lookupAssoc overlayConfigExample.Agents "ruby_compile")
          (lookupAssoc exampleConfig.Agents "ruby_compile") ∧
      (mergeConfigs exampleConfig overlayConfigExample).Image.Base =
        (if overlayConfigExample.Image.Base = "" then exampleConfig.Image.Base
         else overlayConfigExample.Image.Base) ∧
      (mergeConfigs exampleConfig overlayConfigExample).Image.Packages =
        (if overlayConfigExample.Image.Packages = [] then exampleConfig.Image.Packages
         else overlayConfigExample.Image.Packages) ∧
      (mergeConfigs exampleConfig overlayConfigExample).Mise.Install =
        (if overlayConfigExample.Mise.Install = [] then exampleConfig.Mise.Install
         else overlayConfigExample.Mise.Install) ∧
      lookupAssoc (mergeConfigs exampleConfig overlayConfigExample).Mise.Env "ruby_compile" =
        orElseOpt (lookupAssoc overlayConfigExample.Mise.Env "ruby_compile")
          (lookupAssoc exampleConfig.Mise.Env "ruby_compile") ∧
      (mergeConfigs exampleConfig overlayConfigExample).ImageCustoms.Packages =
        exampleConfig.ImageCustoms.Packages ++ overlayConfigExample.ImageCustoms.Packages) :=
  ⟨⟨by decide, by decide, by decide⟩,
    C4_mergeConfigs_semantics exampleConfig overlayConfigExample "ruby_compile"
      (by decide) (by decide) (by decide)⟩

theorem insertAssoc_ne_nil {α : Type} (l : List (String × α)) (k : String) (v : α) :
    insertAssoc l k v ≠ [] := by
  cases l with
  | nil => simp [insertAssoc]
  | cons kv rest =>
    obtain ⟨k0, v0⟩ := kv
    by_cases h : k0 = k <;> simp [insertAssoc, h]

/-- C5: the generated agent-specific manifest contains no key of the user
manifest's `tools` table, binds the agent's own package to `"latest"` when
the user has not pinned that key, and emits its entries with keys sorted
and values quoted. -/
theorem C5_agent_manifest_suppression (doc : TomlDoc) (coll : collectResult)
    (spec : ToolSpec) (k : String)
    (hk : k ∈ (agentToolsMap (userToolNames doc) coll.idiomaticInfos spec.ConfigKey).map Prod.fst)
    (hck : (userToolNames doc).contains spec.ConfigKey = false) :
    buildAgentMiseConfig (some ⟨some doc⟩) coll spec =
      .ok (marshalAgentMiseConfig
        (agentToolsMap (userToolNames doc) coll.idiomaticInfos spec.ConfigKey)) ∧
    (userToolNames doc).contains k = false ∧
    lookupAssoc (agentToolsMap (userToolNames doc) coll.idiomaticInfos spec.ConfigKey)
      spec.ConfigKey = some "latest" ∧
    (sortStrings ((agentToolsMap (userToolNames doc) coll.idiomaticInfos
      spec.ConfigKey).map Prod.fst)).Sorted (fun a b => stringLe a b = true) ∧
    List.Perm
      (sortStrings ((agentToolsMap (userToolNames doc) coll.idiomaticInfos
        spec.ConfigKey).map Prod.fst))
      ((agentToolsMap (userToolNames doc) coll.idiomaticInfos spec.ConfigKey).map Prod.fst) ∧
    marshalAgentMiseConfig (agentToolsMap (userToolNames doc) coll.idiomaticInfos spec.ConfigKey) =
      "[tools]\n" ++ String.join
        ((sortStrings ((agentToolsMap (userToolNames doc) coll.idiomaticInfos
            spec.ConfigKey).map Prod.fst)).map (fun name =>
          (if name.data.any (fun c => c = ':' || c = '@' || c = '/') then goQuote name else name) ++
            " = " ++ goQuote ((lookupAssoc (agentToolsMap (userToolNames doc)
              coll.idiomaticInfos spec.ConfigKey) name).getD "") ++ "\n")) := by
  have hne : agentToolsMap (userToolNames doc) coll.idiomaticInfos spec.ConfigKey ≠ [] := by
    unfold agentToolsMap
    have h' : ¬((userToolNames doc).contains spec.ConfigKey = true) := by
      intro hc
      rw [hck] at hc
      exact Bool.false_ne_true hc
    rw [if_neg h']
    exact insertAssoc_ne_nil _ _ _
  refine ⟨rfl, agentToolsMap_keys_not_user hk, agentToolsMap_configKey hck,
    sortStrings_sorted _, sortStrings_perm _, ?_⟩
  unfold marshalAgentMiseConfig
  rw [if_neg hne]

/-- Witness for C5 at a concrete manifest, collection, agent and key. -/
theorem C5_agent_manifest_suppression_witness :
    (("node" ∈ (agentToolsMap (userToolNames c5UserDoc) c5Collection.idiomaticInfos
        claudeToolSpec.ConfigKey).map Prod.fst) ∧
      (userToolNames c5UserDoc).contains claudeToolSpec.ConfigKey = false) ∧
    (buildAgentMiseConfig (some ⟨some c5UserDoc⟩) c5Collection claudeToolSpec =
        .ok (marshalAgentMiseConfig (agentToolsMap (userToolNames c5UserDoc)
          c5Collection.idiomaticInfos claudeToolSpec.ConfigKey)) ∧
      (userToolNames c5UserDoc).contains "node" = false ∧
      lookupAssoc (agentToolsMap (userToolNames c5UserDoc) c5Collection.idiomaticInfos
        claudeToolSpec.ConfigKey) claudeToolSpec.ConfigKey = some "latest" ∧
      (sortStrings ((agentToolsMap (userToolNames c5UserDoc) c5Collection.idiomaticInfos
        claudeToolSpec.ConfigKey).map Prod.fst)).Sorted (fun a b => stringLe a b = true) ∧
      List.Perm
        (sortStrings ((agentToolsMap (userToolNames c5UserDoc) c5Collection.idiomaticInfos
          claudeToolSpec.ConfigKey).map Prod.fst))
        ((agentToolsMap (userToolNames c5UserDoc) c5Collection.idiomaticInfos
          claudeToolSpec.ConfigKey).map Prod.fst) ∧
      marshalAgentMiseConfig (agentToolsMap (userToolNames c5UserDoc)
          c5Collection.idiomaticInfos claudeToolSpec.ConfigKey) =
        "[tools]\n" ++ String.join
          ((sortStrings ((agentToolsMap (userToolNames c5UserDoc) c5Collection.idiomaticInfos
              claudeToolSpec.ConfigKey).map Prod.fst)).map (fun name =>
            (if name.data.any (fun c => c = ':' || c = '@' || c = '/') then goQuote name
             else name) ++ " = " ++ goQuote ((lookupAssoc (agentToolsMap (userToolNames c5UserDoc)
              c5Collection.idiomaticInfos claudeToolSpec.ConfigKey) name).getD "") ++ "\n"))) :=
  ⟨⟨by decide, by decide⟩,
    C5_agent_manifest_suppression c5UserDoc c5Collection claudeToolSpec "node"
      (by decide) (by decide)⟩

/-- C6: `splitToolVersion` splits an environment-override token at its last
`@`, treats a leading `@` as part of the name, and defaults a missing or
empty version to `"latest"`: `"node"` and `"node@"` yield
`("node","latest")`, `"npm:@my-org/pkg@1.2.3"` yields
`("npm:@my-org/pkg","1.2.3")`, and `"@org/pkg"` yields
`("@org/pkg","latest")`. -/
theorem C6_splitToolVersion_boundaries :
    splitToolVersion "node" = ("node", "latest") ∧
    splitToolVersion "node@" = ("node", "latest") ∧
    splitToolVersion "npm:@my-org/pkg@1.2.3" = ("npm:@my-org/pkg", "1.2.3") ∧
    splitToolVersion "@org/pkg" = ("@org/pkg", "latest") := by
  refine ⟨?_, ?_, ?_, ?_⟩ <;> decide

/-- C7 counterexample: the claim says every non-alphanumeric character other
than `.` is collapsed to a hyphen, which at input `"a!b"` demands `"a-b"`;
the source's `sanitizeTagComponent` instead silently drops `!` (it only maps
the fixed set `+ @ : / _ -` to hyphens) and returns `"ab"`. -/
theorem C7_collapse_counterexample :
    claimSanitize "a!b" = "a-b" ∧ sanitizeTagComponent "a!b" = "ab" ∧
      sanitizeTagComponent "a!b" ≠ claimSanitize "a!b" := by
  refine ⟨?_, ?_, ?_⟩ <;> decide

/-- C7 (amended): `sanitizeTagComponent` case-folds, keeps lower-case
alphanumerics and periods, collapses the fixed punctuation set
`+ @ : / _ -` into runs of single hyphens, silently drops every other
character (e.g. other punctuation or non-ASCII), and trims leading and
trailing hyphens: every output is canonical (only `a-z0-9.-`, no adjacent
hyphens, no leading or trailing hyphen), punctuation from the fixed set
becomes a single hyphen, and characters outside the allowed set vanish. -/
theorem C7_sanitize_normalization (s : String) :
    canonicalTag (sanitizeTagComponent s).data = true ∧
    sanitizeTagComponent "Node_JS@2" = "node-js-2" ∧
    sanitizeTagComponent "a!b" = "ab" ∧
    sanitizeTagComponent "müller" = "mller" ∧
    sanitizeTagComponent "A.B+C" = "a.b-c" ∧
    sanitizeTagComponent "--a--b--" = "a-b" := by
  refine ⟨canonicalTag_sanitize s, ?_, ?_, ?_, ?_, ?_⟩ <;> decide

/-- C8: after resolution at most one descriptor exists per normalized name:
`dedupeToolSpecs` keys its output by normalized names, keeps only the first
input descriptor per normalized name, and `ensureDefaultTool` appends the
agent's package only when no existing descriptor has its normalized name —
so the final list has pairwise-distinct normalized names and contains the
agent's package. -/
theorem C8_at_most_one_per_normalized_name (specs : List toolDescriptor) (ts : ToolSpec) :
    ((dedupeToolSpecs specs).map (fun d => d.name)).Nodup ∧
    ((dedupeToolSpecs specs).all (fun d =>
        decide ((specs.find? (fun s => sanitizeTagComponent s.name == d.name)).map
          resolveDescriptor = some d))) = true ∧
    ((ensureDefaultTool (dedupeToolSpecs specs) ts).map
      (fun d => sanitizeTagComponent d.name)).Nodup ∧
    sanitizeTagComponent ts.MiseToolName ∈
      (ensureDefaultTool (dedupeToolSpecs specs) ts).map
        (fun d => sanitizeTagComponent d.name) := by
  have hnodup : ((dedupeToolSpecs specs).map (fun d => d.name)).Nodup :=
    nodup_dedupeAux specs []
  have hfix : ∀ d ∈ dedupeToolSpecs specs, sanitizeTagComponent d.name = d.name :=
    fun d hd => (mem_dedupeAux specs [] d hd).2.2
  have hmap : (dedupeToolSpecs specs).map (fun d => sanitizeTagComponent d.name) =
      (dedupeToolSpecs specs).map (fun d => d.name) :=
    List.map_congr_left hfix
  refine ⟨hnodup, ?_, ?_, ?_⟩
  · rw [List.all_eq_true]
    intro d hd
    rw [decide_eq_true_eq]
    obtain ⟨s, hs, hres⟩ := dedupe_first_wins hd
    rw [hs, Option.map_some', hres]
  · unfold ensureDefaultTool
    by_cases h : (dedupeToolSpecs specs).any
        (fun s => s.name = sanitizeTagComponent ts.MiseToolName) = true
    · rw [if_pos h, hmap]
      exact hnodup
    · rw [if_neg h, List.map_append, hmap]
      have hnot : sanitizeTagComponent ts.MiseToolName ∉
          (dedupeToolSpecs specs).map (fun d => d.name) := by
        intro hmem
        obtain ⟨d, hd, hname⟩ := List.mem_map.mp hmem
        refine h (List.any_eq_true.mpr ⟨d, hd, ?_⟩)
        simp [hname]
      rw [List.nodup_append]
      refine ⟨hnodup, by simp [defaultToolDescriptor], ?_⟩
      intro a ha hb
      simp only [defaultToolDescriptor, List.map_cons, List.map_nil,
        List.mem_singleton] at hb
      rw [hb] at ha
      exact hnot ha
  · unfold ensureDefaultTool
    by_cases h : (dedupeToolSpecs specs).any
        (fun s => s.name = sanitizeTagComponent ts.MiseToolName) = true
    · rw [if_pos h]
      obtain ⟨d, hd, hname⟩ := List.any_eq_true.mp h
      rw [decide_eq_true_eq] at hname
      refine List.mem_map.mpr ⟨d, hd, ?_⟩
      rw [hfix d hd]
      exact hname
    · rw [if_neg h, List.map_append]
      refine List.mem_append_right _ ?_
      simp [defaultToolDescriptor, sanitize_idempotent]

/-- C9: malformed native-manifest bytes are handled asymmetrically: during
version detection `parseMiseToml` swallows the parse failure and returns the
empty list, while during agent-manifest rendering `buildAgentMiseConfig`
propagates the parse error to the caller. -/
theorem C9_parse_error_asymmetry (f : miseFileSpec) (h : f.parsed = none)
    (coll : collectResult) (spec : ToolSpec) :
    parseMiseToml (some f) = [] ∧
      buildAgentMiseConfig (some f) coll spec = .error "failed to parse mise.toml" := by
  obtain ⟨p⟩ := f
  simp only at h
  subst h
  exact ⟨rfl, rfl⟩

/-- Witness for C9 at a concrete failed parse outcome. -/
theorem C9_parse_error_asymmetry_witness :
    (miseFileSpec.mk none).parsed = none ∧
    (parseMiseToml (some (miseFileSpec.mk none)) = [] ∧
      buildAgentMiseConfig (some (miseFileSpec.mk none)) c5Collection claudeToolSpec =
        .error "failed to parse mise.toml") :=
  ⟨rfl, C9_parse_error_asymmetry (miseFileSpec.mk none) rfl c5Collection claudeToolSpec⟩

/-- C10 counterexample: the claim says a descriptor whose name normalizes to
the empty string never appears in the resolved tool set, the image tag, or
the generated manifests.  The name `"!!!"` normalizes to `""` and is indeed
dropped from the resolved descriptors — but `collectToolSpecs` also records
config-declared dependencies in `idiomaticInfos`, from which
`buildAgentMiseConfig` generates the agent manifest, so the generated
`mise.agent.toml` still contains the line `!!! = "latest"`. -/
theorem C10_dropped_name_still_in_manifest :
    sanitizeTagComponent "!!!" = "" ∧
    (bangCollection.specs.map (fun d => d.name)).contains "!!!" = false ∧
    (buildAgentMiseConfig none bangCollection claudeToolSpec).toOption =
      some "[tools]\n!!! = \"latest\"\n\"npm:@anthropic-ai/claude-code\" = \"latest\"\n" ∧
    hasSubstring "!!!".data
      ((buildAgentMiseConfig none bangCollection claudeToolSpec).toOption.getD "").data = true := by
  refine ⟨?_, ?_, ?_, ?_⟩ <;> decide

/-- C10 (amended): a descriptor whose name normalizes to the empty string is
silently dropped by `dedupeToolSpecs` — removing it from the input changes
nothing — and therefore never appears in the resolved tool set, the image
tag, or the Dockerfile tool labels; the agent manifest, however, is
generated from the separate `idiomaticInfos` list and can still carry such
a name when it arrives as a config-declared dependency. -/
theorem C10_empty_normalized_name_no_effect (l1 l2 : List toolDescriptor)
    (d : toolDescriptor) (h : sanitizeTagComponent d.name = "") :
    dedupeToolSpecs (l1 ++ d :: l2) = dedupeToolSpecs (l1 ++ l2) ∧
    buildImageName (dedupeToolSpecs (l1 ++ d :: l2)) =
      buildImageName (dedupeToolSpecs (l1 ++ l2)) ∧
    buildToolLabels (dedupeToolSpecs (l1 ++ d :: l2)) =
      buildToolLabels (dedupeToolSpecs (l1 ++ l2)) := by
  have he : dedupeToolSpecs (l1 ++ d :: l2) = dedupeToolSpecs (l1 ++ l2) :=
    dedupeAux_drop_empty l1 [] d l2 h
  exact ⟨he, by rw [he], by rw [he]⟩

/-- Witness for C10's amended statement at a concrete input. -/
theorem C10_empty_normalized_name_no_effect_witness :
    sanitizeTagComponent "!!!" = "" ∧
    (dedupeToolSpecs
        ([{ name := "node", version := "18", labelName := "", source := ToolSource.user }] ++
          { name := "!!!", version := "1", labelName := "", source := ToolSource.unset } ::
            [{ name := "ruby", version := "3.2", labelName := "", source := ToolSource.user }]) =
      dedupeToolSpecs
        ([{ name := "node", version := "18", labelName := "", source := ToolSource.user }] ++
          [{ name := "ruby", version := "3.2", labelName := "", source := ToolSource.user }]) ∧
    buildImageName (dedupeToolSpecs
        ([{ name := "node", version := "18", labelName := "", source := ToolSource.user }] ++
          { name := "!!!", version := "1", labelName := "", source := ToolSource.unset } ::
            [{ name := "ruby", version := "3.2", labelName := "", source := ToolSource.user }])) =
      buildImageName (dedupeToolSpecs
        ([{ name := "node", version := "18", labelName := "", source := ToolSource.user }] ++
          [{ name := "ruby", version := "3.2", labelName := "", source := ToolSource.user }])) ∧
    buildToolLabels (dedupeToolSpecs
        ([{ name := "node", version := "18", labelName := "", source := ToolSource.user }] ++
          { name := "!!!", version := "1", labelName := "", source := ToolSource.unset } ::
            [{ name := "ruby", version := "3.2", labelName := "", source := ToolSource.user }])) =
      buildToolLabels (dedupeToolSpecs
        ([{ name := "node", version := "18", labelName := "", source := ToolSource.user }] ++
          [{ name := "ruby", version := "3.2", labelName := "", source := ToolSource.user }]))) :=
  ⟨by decide,
    C10_empty_normalized_name_no_effect _ _
      { name := "!!!", version := "1", labelName := "", source := ToolSource.unset } (by decide)⟩

end AgentEnPlace
